import Mathlib

/-!
# Huffman compressor (`main.c`, `huffman.h`): embedding and verified properties

The C program is embedded shallowly:

* a `HuffmanNode*` value is a term of `HuffmanNode` (`null` is the NULL pointer);
* the linked list of `MinHeapNode` cells is a `List HuffmanNode`;
* the globals `freq` (an `int` array) and `codes` (an array of C strings) are
  functions on the index, read only below `ASCII_SIZE`;
* `unsigned` arithmetic is arithmetic on `Nat` modulo `2 ^ 32`, `int` values are
  `Int`, `unsigned char` values are `Nat` modulo `256`;
* a C string is the list of its character codes (`'0'` is 48, `'1'` is 49);
* an operation that dereferences NULL or indexes an array out of bounds
  returns `none`.
-/

namespace Huffman

/-! ## Constants and data model (`huffman.h`) -/

/-- Size of the `temp_code` buffer in `generate_codes`. -/
def MAX_TREE_HT : Nat := 100

/-- Number of symbols of the alphabet, the size of `freq` and `codes`. -/
def ASCII_SIZE : Nat := 128

/-- A value of type `HuffmanNode*`: the NULL pointer, or a pointer to a node with its
`data`, `frequency`, `left` and `right` fields. -/
inductive HuffmanNode where
  | null : HuffmanNode
  | node (data : Nat) (frequency : Nat) (left right : HuffmanNode) : HuffmanNode
  deriving DecidableEq, Repr

namespace HuffmanNode

/-- The test `p == NULL`. -/
def isNull : HuffmanNode → Bool
  | null => true
  | node _ _ _ _ => false

/-- The field `p->frequency` (the queue only ever holds nodes made by `create_node`;
the value at NULL is never used). -/
def frequency : HuffmanNode → Nat
  | null => 0
  | node _ f _ _ => f

/-- The field `p->data`. -/
def data : HuffmanNode → Nat
  | null => 0
  | node d _ _ _ => d

/-- The field `p->left`. -/
def left : HuffmanNode → HuffmanNode
  | null => null
  | node _ _ l _ => l

/-- The field `p->right`. -/
def right : HuffmanNode → HuffmanNode
  | null => null
  | node _ _ _ r => r

/-- The test `!p->left && !p->right` on a non-NULL pointer. -/
def isLeaf : HuffmanNode → Bool
  | null => false
  | node _ _ l r => l.isNull && r.isNull

end HuffmanNode

open HuffmanNode

/-- Conversion of an `int` to `unsigned` (32 bits). -/
def toUnsigned (x : Int) : Nat := (x % 4294967296).toNat

/-- Function `create_node`: a fresh node with both children NULL. The argument
`frequency` is the value already converted to `unsigned`. -/
def create_node (data : Nat) (frequency : Nat) : HuffmanNode :=
  node data frequency null null

/-- The `while` loop of `insert_queue`, seen from `current->next`: skip the cells whose
frequency is strictly smaller than the new node's, then link the new cell in. -/
def insert_loop (tree_node : HuffmanNode) : List HuffmanNode → List HuffmanNode
  | [] => [tree_node]
  | x :: xs =>
    if x.frequency < tree_node.frequency then x :: insert_loop tree_node xs
    else tree_node :: x :: xs

/-- Function `insert_queue`. -/
def insert_queue (head : List HuffmanNode) (tree_node : HuffmanNode) : List HuffmanNode :=
  match head with
  | [] => [tree_node]
  | h :: t =>
    if tree_node.frequency < h.frequency then tree_node :: h :: t
    else h :: insert_loop tree_node t

/-- The first loop of `build_huffman_tree` after its rounds `i = 0, ..., m - 1`: one leaf
per symbol with a non-zero count, inserted in ascending symbol order. -/
def leaf_queue (freq : Nat → Int) (m : Nat) : List HuffmanNode :=
  (List.range m).foldl
    (fun head i => if freq i ≠ 0 then insert_queue head (create_node i (toUnsigned (freq i)))
                   else head) []

/-- The queue at the end of the first loop of `build_huffman_tree`. -/
def initial_queue (freq : Nat → Int) : List HuffmanNode :=
  leaf_queue freq ASCII_SIZE

/-- One round of the combining loop: `parent = create_node('*', left->frequency +
right->frequency)` (an `unsigned` sum, `'*'` is 42), then `parent->left = left` and
`parent->right = right`. -/
def combine (left right : HuffmanNode) : HuffmanNode :=
  node 42 ((left.frequency + right.frequency) % 4294967296) left right

/-- The combining loop of `build_huffman_tree`, run for at most `fuel` rounds. -/
def combine_loop : Nat → List HuffmanNode → List HuffmanNode
  | fuel + 1, left :: right :: head => combine_loop fuel (insert_queue head (combine left right))
  | _, head => head

/-- Function `build_huffman_tree`. Each round of the combining loop shortens the queue
by one cell, so the length of the queue is enough fuel. -/
def build_huffman_tree (freq : Nat → Int) : HuffmanNode :=
  let head := initial_queue freq
  match combine_loop head.length head with
  | [] => null
  | n :: _ => n

/-! ## Global state -/

/-- The globals `root`, `codes`, `freq`, and the `static` buffer `temp_code` of
`generate_codes`. -/
structure State where
  root : HuffmanNode
  codes : Nat → Option (List Nat)
  freq : Nat → Int
  temp_code : Nat → Nat

/-- The state after the C function that zeroes `freq` and `codes` and sets `root` to NULL
(`temp_code` has static storage, zero at program start). -/
def init_state : State :=
  { root := null, codes := fun _ => none, freq := fun _ => 0,
    temp_code := fun _ => 0 }

/-- Increment of a 32-bit `int` (two's complement wrap-around). -/
def int_incr (x : Int) : Int := (x + 1 + 2147483648) % 4294967296 - 2147483648

/-- Function `calculate_frequency`: `file` is the sequence of values returned by `fgetc`. -/
def calculate_frequency (freq : Nat → Int) (file : List Nat) : Nat → Int :=
  file.foldl (fun fr c => if c < ASCII_SIZE then Function.update fr c (int_incr (fr c)) else fr)
    freq

/-! ## Code generation -/

/-- The call `strdup(temp_code)`: the characters of the buffer before the first NUL. -/
def strdup (temp_code : Nat → Nat) : List Nat :=
  ((List.range MAX_TREE_HT).map temp_code).takeWhile (fun ch => ch != 0)

/-- Function `generate_codes`, on the pair of the buffer `temp_code` and the table `codes`.
A write to `temp_code` at an index of `MAX_TREE_HT` or more, a write to `codes` at an index
of `ASCII_SIZE` or more, and a NULL `root` give `none`. -/
def generate_codes : HuffmanNode → Nat → (Nat → Nat) × (Nat → Option (List Nat)) →
    Option ((Nat → Nat) × (Nat → Option (List Nat)))
  | null, _, _ => none
  | node d _ l r, top, s =>
    let s1 :=
      if l.isNull then some s
      else if top < MAX_TREE_HT then generate_codes l (top + 1) (Function.update s.1 top 48, s.2)
      else none
    let s2 := s1.bind fun s =>
      if r.isNull then some s
      else if top < MAX_TREE_HT then generate_codes r (top + 1) (Function.update s.1 top 49, s.2)
      else none
    s2.bind fun s =>
      if l.isNull && r.isNull then
        if top < MAX_TREE_HT ∧ d < ASCII_SIZE then
          some (Function.update s.1 top 0,
            Function.update s.2 d (some (strdup (Function.update s.1 top 0))))
        else none
      else some s

/-! ## Bit packing -/

/-- The body of the inner `for` loop of `write_compressed` for one character of a code,
on the triple of `buf`, `bit_count` and the bytes written so far. -/
def put_bit (s : Nat × Nat × List Nat) (ch : Nat) : Nat × Nat × List Nat :=
  let buf := ((s.1 <<< 1) ||| (ch - 48)) % 256
  let bit_count := s.2.1 + 1
  if bit_count = 8 then (0, 0, s.2.2 ++ [buf]) else (buf, bit_count, s.2.2)

/-- The inner `for` loop of `write_compressed` over one code. -/
def put_code (code : List Nat) (s : Nat × Nat × List Nat) : Nat × Nat × List Nat :=
  code.foldl put_bit s

/-- The `while` loop of `write_compressed`; `codes[c]` out of bounds or NULL gives `none`. -/
def write_loop (codes : Nat → Option (List Nat)) :
    List Nat → Nat × Nat × List Nat → Option (Nat × Nat × List Nat)
  | [], s => some s
  | c :: cs, s =>
    if c < ASCII_SIZE then
      match codes c with
      | some code => write_loop codes cs (put_code code s)
      | none => none
    else none

/-- The payload part of `write_compressed`: the bytes written after the frequency table. -/
def write_payload (codes : Nat → Option (List Nat)) (input : List Nat) : Option (List Nat) :=
  match write_loop codes input (0, 0, []) with
  | none => none
  | some (buf, bit_count, out) =>
    if bit_count > 0 then some (out ++ [(buf <<< (8 - bit_count)) % 256]) else some out

/-- A compressed file: the `int` values of the frequency header (written and read back
by `fwrite`/`fread` in the native representation) and the payload bytes. -/
structure CompressedFile where
  header : List Int
  payload : List Nat

/-- Function `write_compressed`: the frequency table, then the packed codes. -/
def write_compressed (freq : Nat → Int) (codes : Nat → Option (List Nat)) (input : List Nat) :
    Option CompressedFile :=
  (write_payload codes input).map fun payload =>
    { header := (List.range ASCII_SIZE).map freq, payload := payload }

/-! ## Encode and decode -/

/-- Function `encode`. The result is `none` when the run hits undefined behaviour;
otherwise it is the final state and the output file, `none` when the function returns at
"Error: Empty input file" before the output file is opened. -/
def encode (st : State) (input : List Nat) : Option (State × Option CompressedFile) :=
  let freq := calculate_frequency st.freq input
  let root := build_huffman_tree freq
  if root.isNull then
    some ({ st with freq := freq, root := root }, none)
  else
    match generate_codes root 0 (st.temp_code, st.codes) with
    | none => none
    | some (temp_code, codes) =>
      match write_compressed freq codes input with
      | none => none
      | some file =>
        some ({ root := root, codes := codes, freq := freq, temp_code := temp_code }, some file)

/-- One round of the inner loop of `decode` for the bit `bit`, on the pair of `current`
and the bytes written so far; a NULL dereference gives `none`. -/
def decode_bit (root : HuffmanNode) (bit : Nat) (s : HuffmanNode × List Nat) :
    Option (HuffmanNode × List Nat) :=
  match s.1 with
  | null => none
  | node _ _ l r =>
    match (if bit ≠ 0 then r else l) with
    | null => none
    | node d f l2 r2 =>
      if l2.isNull && r2.isNull then some (root, s.2 ++ [d]) else some (node d f l2 r2, s.2)

/-- The walk of `decode` over a sequence of bits. -/
def decode_bits (root : HuffmanNode) :
    List Nat → HuffmanNode × List Nat → Option (HuffmanNode × List Nat)
  | [], s => some s
  | b :: bs, s => (decode_bit root b s).bind (decode_bits root bs)

/-- The bits `(buf >> i) & 1` for `i` from 7 down to 0. -/
def byte_bits (buf : Nat) : List Nat :=
  [7, 6, 5, 4, 3, 2, 1, 0].map fun i => (buf >>> i) &&& 1

/-- The `while` loop of `decode` over the payload bytes. -/
def decode_loop (root : HuffmanNode) :
    List Nat → HuffmanNode × List Nat → Option (HuffmanNode × List Nat)
  | [], s => some s
  | buf :: rest, s => (decode_bits root (byte_bits buf) s).bind (decode_loop root rest)

/-- The effect of `fread(freq, sizeof(int), ASCII_SIZE, input)`: the entries present in
the header overwrite `freq`. -/
def read_header (freq : Nat → Int) (header : List Int) : Nat → Int :=
  fun i => if i < ASCII_SIZE then header.getD i (freq i) else freq i

/-- What a run of `decode` leaves behind: the final state, whether it stopped at
"Error: Invalid compressed file", whether the output file was opened with mode "w"
(created or truncated), and the bytes written to it. -/
structure DecodeResult where
  state : State
  failed : Bool
  created : Bool
  output : List Nat

/-- Function `decode`; `none` when the run dereferences NULL. -/
def decode (st : State) (file : CompressedFile) : Option DecodeResult :=
  let freq := read_header st.freq file.header
  let root := build_huffman_tree freq
  let st2 : State := { st with freq := freq, root := root }
  if root.isNull then
    some { state := st2, failed := true, created := true, output := [] }
  else
    (decode_loop root file.payload (root, [])).map fun s =>
      { state := st2, failed := false, created := true, output := s.2 }

/-! ## Specification vocabulary -/

/-- Queue order: the frequencies never decrease from the head on. -/
def queue_sorted (q : List HuffmanNode) : Prop :=
  q.Pairwise (fun a b => a.frequency ≤ b.frequency)

instance (q : List HuffmanNode) : Decidable (queue_sorted q) := by
  unfold queue_sorted
  infer_instance

/-- Placement as the specification words it: the new node goes to the first position
whose occupant has a strictly greater frequency, at the end if there is none. -/
def insert_after_equal (q : List HuffmanNode) (n : HuffmanNode) : List HuffmanNode :=
  q.takeWhile (fun x => decide (x.frequency ≤ n.frequency)) ++
    n :: q.dropWhile (fun x => decide (x.frequency ≤ n.frequency))

/-- Every node of the tree has no child or two children. -/
def two_or_none : HuffmanNode → Bool
  | null => true
  | node _ _ l r => (l.isNull == r.isNull) && two_or_none l && two_or_none r

/-- The leaves of a tree from left to right, each with its symbol and its frequency. -/
def leaves : HuffmanNode → List (Nat × Nat)
  | null => []
  | node d f l r => if l.isNull && r.isNull then [(d, f)] else leaves l ++ leaves r

/-- Number of edges on the longest path from the node down to a leaf. -/
def height : HuffmanNode → Nat
  | null => 0
  | node _ _ l r => if l.isNull && r.isNull then 0 else max (height l) (height r) + 1

/-- The leaves of a tree from left to right, each with its symbol and the path from the
root to it: `false` for a step to the left child, `true` for a step to the right child. -/
def leaf_paths : HuffmanNode → List (Nat × List Bool)
  | null => []
  | node d _ l r =>
    if l.isNull && r.isNull then [(d, [])]
    else (leaf_paths l).map (fun e => (e.1, false :: e.2)) ++
      (leaf_paths r).map (fun e => (e.1, true :: e.2))

/-- The characters of a path: `'0'` for left, `'1'` for right. -/
def path_chars (p : List Bool) : List Nat := p.map fun b => if b then 49 else 48

/-- The bits of a path: 0 for left, 1 for right. -/
def path_bits (p : List Bool) : List Nat := p.map fun b => if b then 1 else 0

/-- The queue when the combining loop of `build_huffman_tree` stops: the loop runs on
the initial queue with the length of that queue as fuel. -/
def final_queue (freq : Nat → Int) : List HuffmanNode :=
  combine_loop (initial_queue freq).length (initial_queue freq)

/-- The leaves that the first loop of `build_huffman_tree` makes for the symbols below
`m`: one per non-zero count, with the count converted to `unsigned`. -/
def table_leaves (freq : Nat → Int) (m : Nat) : List (Nat × Nat) :=
  ((List.range m).filter (fun i => decide (freq i ≠ 0))).map (fun i => (i, toUnsigned (freq i)))

/-- The frequency table of the input "aaabbc". -/
def table_aaabbc : Nat → Int :=
  fun i => if i = 97 then 3 else if i = 98 then 2 else if i = 99 then 1 else 0

/-- The code table after binding, in order, each listed leaf to the characters of `pre`
followed by its path. -/
def put_paths (codes : Nat → Option (List Nat)) (pre : List Bool)
    (ps : List (Nat × List Bool)) : Nat → Option (List Nat) :=
  ps.foldl (fun c e => Function.update c e.1 (some (path_chars (pre ++ e.2)))) codes

/-- In every node of the tree the frequency is at least the Fibonacci number of the
height plus two. -/
def fib_ok : HuffmanNode → Prop
  | null => True
  | node d f l r => Nat.fib (height (node d f l r) + 2) ≤ f ∧ fib_ok l ∧ fib_ok r

/-- What holds of every entry of the queue of `build_huffman_tree`. -/
def entry_ok (x : HuffmanNode) : Prop :=
  x.isNull = false ∧ two_or_none x = true ∧ x.frequency < 4294967296

/-- The queue before any sum of two frequencies has wrapped around. -/
def exact_phase (q : List HuffmanNode) : Prop :=
  queue_sorted q ∧
  (∀ x ∈ q, fib_ok x ∧ (x.isLeaf = true → x.frequency < 2147483648)) ∧
  (∀ x ∈ q, ∀ y ∈ q, y.left.frequency ≤ x.frequency ∧ y.right.frequency ≤ x.frequency)

/-- The queue once a sum has wrapped around: few entries are left. -/
def wrapped_phase (q : List HuffmanNode) : Prop :=
  ∃ H, (∀ x ∈ q, height x ≤ H) ∧ H + q.length ≤ MAX_TREE_HT

/-- The bits that a packer state stands for: the bytes written, then the pending bits. -/
def state_bits (s : Nat × Nat × List Nat) : List Nat :=
  s.2.2.flatMap byte_bits ++ (byte_bits s.1).drop (8 - s.2.1)

/-- Fewer than eight bits are pending and `buf` holds nothing else. -/
def state_ok (s : Nat × Nat × List Nat) : Prop := s.2.1 < 8 ∧ s.1 < 2 ^ s.2.1

/-- The bits that `write_compressed` packs for an input: the characters of the codes of
its symbols, each minus `'0'`. -/
def code_bits (codes : Nat → Option (List Nat)) (input : List Nat) : List Nat :=
  input.flatMap fun c => ((codes c).getD []).map fun ch => ch - 48

/-- A node at which the walk of `decode` can stand: an internal node of a tree in which
every node has no child or two. -/
def walk_ok (t : HuffmanNode) : Prop :=
  t.isNull = false ∧ t.isLeaf = false ∧ two_or_none t = true

/-- The code table of the input "aaabbc": 'a' is "0", 'b' is "11", 'c' is "10". -/
def codes_aaabbc : Nat → Option (List Nat) :=
  fun c => if c = 97 then some [48] else if c = 98 then some [49, 49]
    else if c = 99 then some [49, 48] else none

/-- The value that a 32-bit `int` holds for the number `x` (two's complement wrap-around). -/
def int_wrap (x : Int) : Int := (x + 2147483648) % 4294967296 - 2147483648

/-- An input of in-range bytes with two different symbols in which 'a' occurs `2 ^ 32`
times: 4294967296 copies of 'a' followed by one 'b'. -/
def overflow_input : List Nat := List.replicate 4294967296 97 ++ [98]

/-! # Properties -/

/-! ## The queue -/

theorem insert_loop_perm (n : HuffmanNode) (xs : List HuffmanNode) :
    (insert_loop n xs).Perm (n :: xs) := by
  induction xs with
  | nil => exact List.Perm.refl _
  | cons x xs ih =>
    unfold insert_loop
    split
    · exact (List.Perm.cons x ih).trans (List.Perm.swap n x xs)
    · exact List.Perm.refl _

theorem insert_queue_cons (a : HuffmanNode) (t : List HuffmanNode) (n : HuffmanNode) :
    insert_queue (a :: t) n =
      if n.frequency < a.frequency then n :: a :: t else a :: insert_loop n t := rfl

theorem insert_queue_perm (q : List HuffmanNode) (n : HuffmanNode) :
    (insert_queue q n).Perm (n :: q) := by
  cases q with
  | nil => exact List.Perm.refl _
  | cons h t =>
    rw [insert_queue_cons]
    split
    · exact List.Perm.refl _
    · exact (List.Perm.cons h (insert_loop_perm n t)).trans (List.Perm.swap n h t)

theorem insert_queue_length (q : List HuffmanNode) (n : HuffmanNode) :
    (insert_queue q n).length = q.length + 1 := by
  simpa using (insert_queue_perm q n).length_eq

theorem mem_insert_queue {q : List HuffmanNode} {n x : HuffmanNode} :
    x ∈ insert_queue q n ↔ x = n ∨ x ∈ q := by
  rw [(insert_queue_perm q n).mem_iff, List.mem_cons]

theorem insert_loop_sorted (n : HuffmanNode) (xs : List HuffmanNode) (h : queue_sorted xs) :
    queue_sorted (insert_loop n xs) := by
  induction xs with
  | nil => simp [insert_loop, queue_sorted]
  | cons x xs ih =>
    unfold queue_sorted at h ih ⊢
    rw [List.pairwise_cons] at h
    unfold insert_loop
    split
    · rename_i hlt
      rw [List.pairwise_cons]
      refine ⟨?_, ih h.2⟩
      intro y hy
      rw [(insert_loop_perm n xs).mem_iff, List.mem_cons] at hy
      rcases hy with rfl | hy
      · exact Nat.le_of_lt hlt
      · exact h.1 y hy
    · rename_i hge
      rw [List.pairwise_cons, List.pairwise_cons]
      refine ⟨?_, h⟩
      intro y hy
      rw [List.mem_cons] at hy
      rcases hy with rfl | hy
      · exact Nat.le_of_not_lt hge
      · exact Nat.le_trans (Nat.le_of_not_lt hge) (h.1 y hy)

theorem insert_queue_sorted (q : List HuffmanNode) (n : HuffmanNode) (h : queue_sorted q) :
    queue_sorted (insert_queue q n) := by
  cases q with
  | nil => simp [insert_queue, queue_sorted]
  | cons a t =>
    unfold queue_sorted at h
    rw [List.pairwise_cons] at h
    rw [insert_queue_cons]
    split
    · rename_i hlt
      unfold queue_sorted
      rw [List.pairwise_cons, List.pairwise_cons]
      refine ⟨?_, h⟩
      intro y hy
      rw [List.mem_cons] at hy
      rcases hy with rfl | hy
      · exact Nat.le_of_lt hlt
      · exact Nat.le_trans (Nat.le_of_lt hlt) (h.1 y hy)
    · rename_i hge
      have hs := insert_loop_sorted n t h.2
      unfold queue_sorted at hs ⊢
      rw [List.pairwise_cons]
      refine ⟨?_, hs⟩
      intro y hy
      rw [(insert_loop_perm n t).mem_iff, List.mem_cons] at hy
      rcases hy with rfl | hy
      · exact Nat.le_of_not_lt hge
      · exact h.1 y hy

theorem leaf_queue_succ (freq : Nat → Int) (m : Nat) :
    leaf_queue freq (m + 1) =
      if freq m ≠ 0 then insert_queue (leaf_queue freq m) (create_node m (toUnsigned (freq m)))
      else leaf_queue freq m := by
  simp [leaf_queue, List.range_succ, List.foldl_append]

theorem leaf_queue_sorted (freq : Nat → Int) (m : Nat) : queue_sorted (leaf_queue freq m) := by
  induction m with
  | zero => simp [leaf_queue, queue_sorted]
  | succ m ih =>
    rw [leaf_queue_succ]
    split
    · exact insert_queue_sorted _ _ ih
    · exact ih

theorem combine_loop_sorted (k : Nat) (q : List HuffmanNode) (h : queue_sorted q) :
    queue_sorted (combine_loop k q) := by
  induction k generalizing q with
  | zero => simpa [combine_loop] using h
  | succ k ih =>
    match q, h with
    | [], h => simpa [combine_loop] using h
    | [a], h => simpa [combine_loop] using h
    | a :: b :: rest, h =>
      simp only [combine_loop]
      apply ih
      apply insert_queue_sorted
      unfold queue_sorted at h ⊢
      exact (List.pairwise_cons.1 (List.pairwise_cons.1 h).2).2

theorem insert_loop_eq (n : HuffmanNode) (xs : List HuffmanNode) :
    insert_loop n xs =
      xs.takeWhile (fun x => decide (x.frequency < n.frequency)) ++
        n :: xs.dropWhile (fun x => decide (x.frequency < n.frequency)) := by
  induction xs with
  | nil => rfl
  | cons x xs ih =>
    by_cases h : x.frequency < n.frequency
    · simp [insert_loop, List.takeWhile, List.dropWhile, h, ih]
    · simp [insert_loop, List.takeWhile, List.dropWhile, h]

theorem combine_loop_length (k : Nat) (q : List HuffmanNode) (h : q.length ≤ k + 1) :
    (combine_loop k q).length = min q.length 1 := by
  induction k generalizing q with
  | zero =>
    match q, h with
    | [], _ => rfl
    | [_], _ => rfl
    | _ :: _ :: _, h => simp at h
  | succ k ih =>
    match q, h with
    | [], _ => rfl
    | [_], _ => rfl
    | a :: b :: rest, h =>
      simp only [combine_loop]
      rw [ih _ (by rw [insert_queue_length]; simp at h; omega), insert_queue_length]
      simp

theorem mem_leaf_queue {freq : Nat → Int} {m : Nat} {x : HuffmanNode}
    (h : x ∈ leaf_queue freq m) :
    ∃ i, i < m ∧ freq i ≠ 0 ∧ x = create_node i (toUnsigned (freq i)) := by
  induction m with
  | zero => simp [leaf_queue] at h
  | succ m ih =>
    rw [leaf_queue_succ] at h
    split at h
    · rename_i hne
      rw [mem_insert_queue] at h
      rcases h with rfl | h
      · exact ⟨m, Nat.lt_succ_self m, hne, rfl⟩
      · obtain ⟨i, hi, hx⟩ := ih h
        exact ⟨i, Nat.lt_succ_of_lt hi, hx⟩
    · obtain ⟨i, hi, hx⟩ := ih h
      exact ⟨i, Nat.lt_succ_of_lt hi, hx⟩

/-- Induction over the construction: a property of every leaf made from the table that
is kept by combining holds for every entry of the queue after any number of rounds. -/
theorem combine_loop_induction (P : HuffmanNode → Prop)
    (hcomb : ∀ l r, P l → P r → P (combine l r)) (k : Nat) (q : List HuffmanNode)
    (hq : ∀ x ∈ q, P x) : ∀ x ∈ combine_loop k q, P x := by
  induction k generalizing q with
  | zero => exact hq
  | succ k ih =>
    match q, hq with
    | [], hq => simp [combine_loop]
    | [a], hq => simpa [combine_loop] using hq
    | a :: b :: rest, hq =>
      simp only [combine_loop]
      apply ih
      intro x hx
      rw [mem_insert_queue] at hx
      rcases hx with rfl | hx
      · exact hcomb a b (hq a (by simp)) (hq b (by simp))
      · exact hq x (by simp [hx])

theorem build_induction (P : HuffmanNode → Prop) (freq : Nat → Int)
    (hleaf : ∀ i, i < ASCII_SIZE → freq i ≠ 0 → P (create_node i (toUnsigned (freq i))))
    (hcomb : ∀ l r, P l → P r → P (combine l r)) (k : Nat) :
    ∀ x ∈ combine_loop k (initial_queue freq), P x := by
  apply combine_loop_induction P hcomb
  intro x hx
  obtain ⟨i, hi, hne, rfl⟩ := mem_leaf_queue hx
  exact hleaf i hi hne

theorem leaf_queue_eq_nil (freq : Nat → Int) (m : Nat) :
    leaf_queue freq m = [] ↔ ∀ i, i < m → freq i = 0 := by
  induction m with
  | zero => simp [leaf_queue]
  | succ m ih =>
    rw [leaf_queue_succ]
    by_cases hm : freq m = 0
    · simp only [hm, ne_eq, not_true_eq_false, if_false, ih]
      constructor
      · intro h i hi
        rcases Nat.lt_succ_iff_lt_or_eq.1 hi with hlt | rfl
        · exact h i hlt
        · exact hm
      · intro h i hi
        exact h i (Nat.lt_succ_of_lt hi)
    · simp only [ne_eq, hm, not_false_eq_true, if_true]
      constructor
      · intro h
        have := insert_queue_length (leaf_queue freq m) (create_node m (toUnsigned (freq m)))
        rw [h] at this
        simp at this
      · intro h
        exact absurd (h m (Nat.lt_succ_self m)) hm

theorem final_queue_length (freq : Nat → Int) :
    (final_queue freq).length = min (initial_queue freq).length 1 :=
  combine_loop_length _ _ (Nat.le_succ _)

theorem build_eq_of_final {freq : Nat → Int} {n : HuffmanNode} (h : final_queue freq = [n]) :
    build_huffman_tree freq = n := by
  unfold final_queue at h
  simp [build_huffman_tree, h]

theorem final_queue_of_nonzero (freq : Nat → Int) (h : ∃ i, i < ASCII_SIZE ∧ freq i ≠ 0) :
    ∃ n, final_queue freq = [n] := by
  have hlen := final_queue_length freq
  have hne : initial_queue freq ≠ [] := by
    intro h0
    obtain ⟨i, hi, hi2⟩ := h
    exact hi2 ((leaf_queue_eq_nil freq ASCII_SIZE).1 h0 i hi)
  have : (final_queue freq).length = 1 := by
    rw [hlen]
    have : 0 < (initial_queue freq).length := List.length_pos.2 hne
    omega
  match hq : final_queue freq, this with
  | [n], _ => exact ⟨n, rfl⟩

theorem final_queue_of_zero (freq : Nat → Int) (h : ∀ i, i < ASCII_SIZE → freq i = 0) :
    final_queue freq = [] := by
  have h0 : initial_queue freq = [] := (leaf_queue_eq_nil freq ASCII_SIZE).2 h
  simp [final_queue, h0, combine_loop]

theorem final_queue_not_null (freq : Nat → Int) : ∀ x ∈ final_queue freq, x.isNull = false :=
  build_induction (fun x => x.isNull = false) freq (fun _ _ _ => rfl) (fun _ _ _ _ => rfl) _

/-! ## The tree builder -/

theorem initial_queue_eq_nil (freq : Nat → Int) :
    initial_queue freq = [] ↔ ∀ i, i < ASCII_SIZE → freq i = 0 :=
  leaf_queue_eq_nil freq ASCII_SIZE

theorem build_of_zero (freq : Nat → Int) (h : ∀ i, i < ASCII_SIZE → freq i = 0) :
    build_huffman_tree freq = null := by
  have h0 := final_queue_of_zero freq h
  unfold final_queue at h0
  simp [build_huffman_tree, h0]

theorem build_of_nonzero (freq : Nat → Int) (h : ∃ i, i < ASCII_SIZE ∧ freq i ≠ 0) :
    ∃ d f l r, final_queue freq = [node d f l r] ∧ build_huffman_tree freq = node d f l r := by
  obtain ⟨n, hn⟩ := final_queue_of_nonzero freq h
  have hnn := final_queue_not_null freq n (by simp [hn])
  cases n with
  | null => simp [isNull] at hnn
  | node d f l r => exact ⟨d, f, l, r, hn, build_eq_of_final hn⟩

theorem build_cases (freq : Nat → Int) :
    (build_huffman_tree freq = null ∧ final_queue freq = []) ∨
      ((build_huffman_tree freq).isNull = false ∧
        final_queue freq = [build_huffman_tree freq]) := by
  by_cases h : ∃ i, i < ASCII_SIZE ∧ freq i ≠ 0
  · obtain ⟨d, f, l, r, hq, hb⟩ := build_of_nonzero freq h
    right
    rw [hb, hq]
    exact ⟨rfl, rfl⟩
  · push_neg at h
    left
    exact ⟨build_of_zero freq h, final_queue_of_zero freq h⟩

/-- A property of every leaf made from the table that is kept by combining holds for
the tree returned by `build_huffman_tree`. -/
theorem build_induct (P : HuffmanNode → Prop) (freq : Nat → Int)
    (hleaf : ∀ i, i < ASCII_SIZE → freq i ≠ 0 → P (create_node i (toUnsigned (freq i))))
    (hcomb : ∀ l r, P l → P r → P (combine l r))
    (hn : (build_huffman_tree freq).isNull = false) : P (build_huffman_tree freq) := by
  rcases build_cases freq with ⟨h, _⟩ | ⟨_, h⟩
  · rw [h] at hn; simp [isNull] at hn
  · apply build_induction P freq hleaf hcomb (initial_queue freq).length
    have : build_huffman_tree freq ∈ final_queue freq := by rw [h]; simp
    exact this

theorem build_two_or_none (freq : Nat → Int) : two_or_none (build_huffman_tree freq) = true := by
  rcases build_cases freq with ⟨h, _⟩ | ⟨hn, _⟩
  · rw [h]; rfl
  · exact (build_induct (fun x => two_or_none x = true ∧ x.isNull = false) freq
      (fun _ _ _ => ⟨rfl, rfl⟩)
      (fun l r hl hr => by
        refine ⟨?_, rfl⟩
        simp [combine, two_or_none, hl.1, hl.2, hr.1, hr.2]) hn).1

theorem table_leaves_succ (freq : Nat → Int) (m : Nat) :
    table_leaves freq (m + 1) =
      table_leaves freq m ++ (if freq m ≠ 0 then [(m, toUnsigned (freq m))] else []) := by
  unfold table_leaves
  rw [List.range_succ, List.filter_append, List.map_append]
  by_cases h : freq m = 0 <;> simp [List.filter, h]

theorem leaves_create_node (d f : Nat) : leaves (create_node d f) = [(d, f)] := rfl

theorem leaves_combine (l r : HuffmanNode) (hl : l.isNull = false) :
    leaves (combine l r) = leaves l ++ leaves r := by
  simp [combine, leaves, hl]

theorem leaf_queue_leaves (freq : Nat → Int) (m : Nat) :
    ((leaf_queue freq m).flatMap leaves).Perm (table_leaves freq m) := by
  induction m with
  | zero => simp [leaf_queue, table_leaves]
  | succ m ih =>
    rw [leaf_queue_succ, table_leaves_succ]
    by_cases h : freq m = 0
    · simpa [h] using ih
    · simp only [ne_eq, h, not_false_eq_true, if_true]
      refine ((insert_queue_perm _ _).flatMap_right leaves).trans ?_
      rw [List.flatMap_cons, leaves_create_node]
      exact (List.perm_append_comm).trans (List.Perm.append_right _ ih)

theorem combine_loop_leaves (k : Nat) (q : List HuffmanNode)
    (hq : ∀ x ∈ q, x.isNull = false) :
    ((combine_loop k q).flatMap leaves).Perm (q.flatMap leaves) := by
  induction k generalizing q with
  | zero => exact List.Perm.refl _
  | succ k ih =>
    match q, hq with
    | [], _ => exact List.Perm.refl _
    | [a], _ => exact List.Perm.refl _
    | a :: b :: rest, hq =>
      simp only [combine_loop]
      have hq2 : ∀ x ∈ insert_queue rest (combine a b), x.isNull = false := by
        intro x hx
        rw [mem_insert_queue] at hx
        rcases hx with rfl | hx
        · rfl
        · exact hq x (by simp [hx])
      refine (ih _ hq2).trans ?_
      refine ((insert_queue_perm _ _).flatMap_right leaves).trans ?_
      rw [List.flatMap_cons, leaves_combine a b (hq a (by simp)), List.flatMap_cons,
        List.flatMap_cons, List.append_assoc]

theorem initial_queue_not_null (freq : Nat → Int) : ∀ x ∈ initial_queue freq, x.isNull = false := by
  intro x hx
  obtain ⟨i, _, _, rfl⟩ := mem_leaf_queue hx
  rfl

theorem final_queue_leaves (freq : Nat → Int) :
    ((final_queue freq).flatMap leaves).Perm (table_leaves freq ASCII_SIZE) :=
  (combine_loop_leaves _ _ (initial_queue_not_null freq)).trans (leaf_queue_leaves freq ASCII_SIZE)

theorem leaves_null : leaves null = [] := rfl

theorem build_leaves (freq : Nat → Int) :
    (leaves (build_huffman_tree freq)).Perm (table_leaves freq ASCII_SIZE) := by
  have h := final_queue_leaves freq
  by_cases hne : ∃ i, i < ASCII_SIZE ∧ freq i ≠ 0
  · obtain ⟨n, hn⟩ := final_queue_of_nonzero freq hne
    rw [build_eq_of_final hn]
    simpa [hn] using h
  · push_neg at hne
    have h0 := final_queue_of_zero freq hne
    have hb : build_huffman_tree freq = null := by
      unfold final_queue at h0
      simp [build_huffman_tree, h0]
    rw [hb, leaves_null]
    simpa [h0] using h

theorem toUnsigned_of_range {x : Int} (h0 : 0 ≤ x) (h1 : x < 2147483648) :
    ((toUnsigned x : Nat) : Int) = x := by
  unfold toUnsigned
  rw [Int.emod_eq_of_lt h0 (by omega)]
  exact Int.toNat_of_nonneg h0

theorem table_leaves_fst_nodup (freq : Nat → Int) (m : Nat) :
    ((table_leaves freq m).map Prod.fst).Nodup := by
  unfold table_leaves
  rw [List.map_map]
  have : (Prod.fst ∘ fun i => (i, toUnsigned (freq i))) = id := rfl
  rw [this, List.map_id]
  exact (List.nodup_range m).filter _

theorem table_leaves_sum (freq : Nat → Int) (m : Nat)
    (hr : ∀ i, i < m → 0 ≤ freq i ∧ freq i < 2147483648) :
    ((table_leaves freq m).map (fun e => (e.2 : Int))).sum = ((List.range m).map freq).sum := by
  induction m with
  | zero => simp [table_leaves]
  | succ m ih =>
    rw [table_leaves_succ, List.range_succ]
    have ih' := ih (fun i hi => hr i (Nat.lt_succ_of_lt hi))
    by_cases h : freq m = 0
    · simp [h, ih']
    · simp [h, ih', toUnsigned_of_range (hr m (Nat.lt_succ_self m)).1 (hr m (Nat.lt_succ_self m)).2]

/-! ## Claims on the queue and the tree builder -/

/-- C4 (counterexample): with the sorted queue holding a leaf of frequency 1 then a leaf of
frequency 2, inserting another leaf of frequency 2 places it before the leaf of equal
frequency that is already queued, not after it as the specified placement does; so in the
first loop of `build_huffman_tree` on counts 1, 2, 2 for the symbols 0, 1, 2 the leaf of
symbol 2, inserted last, is queued ahead of the leaf of symbol 1. -/
theorem insert_queue_not_insertion_order :
    queue_sorted [create_node 0 1, create_node 1 2] ∧
    insert_queue [create_node 0 1, create_node 1 2] (create_node 2 2) =
      [create_node 0 1, create_node 2 2, create_node 1 2] ∧
    insert_after_equal [create_node 0 1, create_node 1 2] (create_node 2 2) =
      [create_node 0 1, create_node 1 2, create_node 2 2] ∧
    insert_queue [create_node 0 1, create_node 1 2] (create_node 2 2) ≠
      insert_after_equal [create_node 0 1, create_node 1 2] (create_node 2 2) ∧
    leaf_queue (fun i => if i = 0 then 1 else if i = 1 then 2 else if i = 2 then 2 else 0) 3 =
      [create_node 0 1, create_node 2 2, create_node 1 2] := by
  decide

/-- C4 (amended): `insert_queue` puts the node at the head when the queue is empty or the
node's frequency is strictly smaller than the head's; otherwise the head stays first and the
node goes, behind the head, to the first position whose occupant has a frequency greater
than or equal to the node's (after the entries of strictly smaller frequency), at the end if
there is none. -/
theorem insert_queue_placement (q : List HuffmanNode) (n : HuffmanNode) :
    insert_queue q n =
      match q with
      | [] => [n]
      | a :: t =>
        if n.frequency < a.frequency then n :: a :: t
        else a :: (t.takeWhile (fun x => decide (x.frequency < n.frequency)) ++
          n :: t.dropWhile (fun x => decide (x.frequency < n.frequency))) := by
  cases q with
  | nil => rfl
  | cons a t => rw [insert_queue_cons, insert_loop_eq]

/-- C5: on a queue in non-decreasing frequency order, `insert_queue` returns a queue that
holds exactly the old entries and the new node and is again in non-decreasing frequency
order; the queue of `build_huffman_tree` is in that order after every round of its first
loop and of its combining loop, and the two entries at its head have the two smallest
frequencies of the queue. -/
theorem insert_queue_keeps_order (q : List HuffmanNode) (n : HuffmanNode) (freq : Nat → Int)
    (m k : Nat) (h : queue_sorted q) :
    (insert_queue q n).Perm (n :: q) ∧ queue_sorted (insert_queue q n) ∧
    queue_sorted (leaf_queue freq m) ∧
    queue_sorted (combine_loop k (initial_queue freq)) ∧
    ∀ l r rest, combine_loop k (initial_queue freq) = l :: r :: rest →
      l.frequency ≤ r.frequency ∧
      ∀ x ∈ rest, l.frequency ≤ x.frequency ∧ r.frequency ≤ x.frequency := by
  refine ⟨insert_queue_perm q n, insert_queue_sorted q n h, leaf_queue_sorted freq m,
    combine_loop_sorted k _ (leaf_queue_sorted freq _), ?_⟩
  intro l r rest heq
  have hs := combine_loop_sorted k _ (leaf_queue_sorted freq ASCII_SIZE)
  unfold initial_queue at heq
  rw [heq] at hs
  unfold queue_sorted at hs
  rw [List.pairwise_cons, List.pairwise_cons] at hs
  refine ⟨hs.1 r (by simp), ?_⟩
  intro x hx
  exact ⟨hs.1 x (by simp [hx]), hs.2.1 x hx⟩

/-- C5 (witness): the sorted queue of two leaves of frequencies 1 and 2 stays sorted when a
leaf of frequency 2 is inserted. -/
theorem insert_queue_keeps_order_witness :
    queue_sorted [create_node 0 1, create_node 1 2] ∧
    queue_sorted (insert_queue [create_node 0 1, create_node 1 2] (create_node 2 2)) :=
  ⟨by decide, (insert_queue_keeps_order [create_node 0 1, create_node 1 2] (create_node 2 2)
    table_aaabbc 0 0 (by decide)).2.1⟩

/-- C6: `build_huffman_tree` returns NULL exactly when all the `ASCII_SIZE` counts are zero;
its combining loop stops within the fuel with at most one entry queued, and when some count
is non-zero exactly one entry is left, a node, which is the tree returned. -/
theorem build_absent_root_iff (freq : Nat → Int) :
    (build_huffman_tree freq = null ↔ ∀ i, i < ASCII_SIZE → freq i = 0) ∧
    (final_queue freq).length ≤ 1 ∧
    ((∃ i, i < ASCII_SIZE ∧ freq i ≠ 0) →
      ∃ d f l r, final_queue freq = [node d f l r] ∧ build_huffman_tree freq = node d f l r) := by
  refine ⟨⟨?_, build_of_zero freq⟩, ?_, build_of_nonzero freq⟩
  · intro hnull
    by_contra hne
    push_neg at hne
    obtain ⟨d, f, l, r, _, hb⟩ := build_of_nonzero freq hne
    rw [hb] at hnull
    exact HuffmanNode.noConfusion hnull
  · rw [final_queue_length]
    exact Nat.min_le_right _ _

/-- C6 (witness): the table of "aaabbc" has a non-zero count and its tree is a node. -/
theorem build_absent_root_iff_witness :
    (∃ i, i < ASCII_SIZE ∧ table_aaabbc i ≠ 0) ∧
    ∃ d f l r, final_queue table_aaabbc = [node d f l r] ∧
      build_huffman_tree table_aaabbc = node d f l r :=
  ⟨⟨97, by decide, by decide⟩, (build_absent_root_iff table_aaabbc).2.2 ⟨97, by decide, by decide⟩⟩

/-- C7: for every table with a non-zero count, the tree returned by `build_huffman_tree` is
not NULL, the symbols of its leaves are exactly the symbols with a non-zero count, each once,
and the frequency of every leaf is the count of its symbol converted to `unsigned`; when the
counts are non-negative `int` values, the frequency of every leaf equals the count of its
symbol and the leaf frequencies add up to the sum of all counts. -/
theorem leaf_frequency_conservation (freq : Nat → Int)
    (hne : ∃ i, i < ASCII_SIZE ∧ freq i ≠ 0) :
    build_huffman_tree freq ≠ null ∧
    ((leaves (build_huffman_tree freq)).map Prod.fst).Perm
      ((List.range ASCII_SIZE).filter (fun i => decide (freq i ≠ 0))) ∧
    (∀ e ∈ leaves (build_huffman_tree freq), e.2 = toUnsigned (freq e.1)) ∧
    ((∀ i, i < ASCII_SIZE → 0 ≤ freq i ∧ freq i < 2147483648) →
      (∀ e ∈ leaves (build_huffman_tree freq), (e.2 : Int) = freq e.1) ∧
      ((leaves (build_huffman_tree freq)).map (fun e => (e.2 : Int))).sum =
        ((List.range ASCII_SIZE).map freq).sum) := by
  have hp := build_leaves freq
  have hmem : ∀ e ∈ leaves (build_huffman_tree freq),
      e.1 < ASCII_SIZE ∧ e.2 = toUnsigned (freq e.1) := by
    intro e he
    have he2 := hp.mem_iff.1 he
    unfold table_leaves at he2
    rw [List.mem_map] at he2
    obtain ⟨i, hi, rfl⟩ := he2
    rw [List.mem_filter, List.mem_range] at hi
    exact ⟨hi.1, rfl⟩
  refine ⟨?_, ?_, fun e he => (hmem e he).2, ?_⟩
  · obtain ⟨d, f, l, r, _, hb⟩ := build_of_nonzero freq hne
    rw [hb]
    exact fun h0 => HuffmanNode.noConfusion h0
  · have := hp.map Prod.fst
    refine this.trans ?_
    unfold table_leaves
    rw [List.map_map]
    have : (Prod.fst ∘ fun i => (i, toUnsigned (freq i))) = id := rfl
    rw [this, List.map_id]
  · intro hrange
    refine ⟨?_, ?_⟩
    · intro e he
      obtain ⟨h1, h2⟩ := hmem e he
      rw [h2]
      exact toUnsigned_of_range (hrange e.1 h1).1 (hrange e.1 h1).2
    · rw [← table_leaves_sum freq ASCII_SIZE hrange]
      exact (hp.map _).sum_eq

/-- C7 (witness): the table of "aaabbc". -/
theorem leaf_frequency_conservation_witness :
    (∃ i, i < ASCII_SIZE ∧ table_aaabbc i ≠ 0) ∧
    (∀ i, i < ASCII_SIZE → 0 ≤ table_aaabbc i ∧ table_aaabbc i < 2147483648) ∧
    ((leaves (build_huffman_tree table_aaabbc)).map (fun e => (e.2 : Int))).sum =
      ((List.range ASCII_SIZE).map table_aaabbc).sum :=
  ⟨⟨97, by decide, by decide⟩, by decide,
    ((leaf_frequency_conservation table_aaabbc ⟨97, by decide, by decide⟩).2.2.2
      (by decide)).2⟩

/-- C8: in the tree returned by `build_huffman_tree` every node has either no child or two
children. -/
theorem build_full_binary (freq : Nat → Int) :
    two_or_none (build_huffman_tree freq) = true :=
  build_two_or_none freq

/-! ## Code generation -/

theorem put_paths_append (codes : Nat → Option (List Nat)) (pre : List Bool)
    (a b : List (Nat × List Bool)) :
    put_paths codes pre (a ++ b) = put_paths (put_paths codes pre a) pre b := by
  simp [put_paths, List.foldl_append]

theorem put_paths_map (codes : Nat → Option (List Nat)) (pre : List Bool) (b : Bool)
    (ps : List (Nat × List Bool)) :
    put_paths codes pre (ps.map (fun e => (e.1, b :: e.2))) = put_paths codes (pre ++ [b]) ps := by
  simp [put_paths, List.foldl_map]

theorem path_chars_ne_zero (p : List Bool) : ∀ c ∈ path_chars p, c ≠ 0 := by
  intro c hc
  unfold path_chars at hc
  rw [List.mem_map] at hc
  obtain ⟨b, _, rfl⟩ := hc
  cases b <;> simp

theorem path_chars_length (p : List Bool) : (path_chars p).length = p.length := by
  simp [path_chars]

theorem takeWhile_append_zero (l1 l2 : List Nat) (h : ∀ c ∈ l1, c ≠ 0) :
    (l1 ++ 0 :: l2).takeWhile (fun ch => ch != 0) = l1 := by
  induction l1 with
  | nil => simp [List.takeWhile]
  | cons a l ih =>
    have ha : a ≠ 0 := h a (by simp)
    have := ih (fun c hc => h c (by simp [hc]))
    simp [List.takeWhile_cons, ha, this]

theorem strdup_update (tc : Nat → Nat) (top : Nat) (cs : List Nat) (htop : top < MAX_TREE_HT)
    (hlen : cs.length = top) (hcs : ∀ c ∈ cs, c ≠ 0) (htc : ∀ i, i < top → tc i = cs.getD i 0) :
    strdup (Function.update tc top 0) = cs := by
  unfold strdup
  have hsplit : List.range MAX_TREE_HT =
      List.range top ++ top :: (List.range (MAX_TREE_HT - top - 1)).map (fun i => top + 1 + i) := by
    apply List.ext_getElem
    · simp; omega
    · intro i h1 h2
      simp at h1
      by_cases hi : i < top
      · simp [List.getElem_append, hi]
      · by_cases hi2 : i = top
        · subst hi2; simp [List.getElem_append]
        · simp [List.getElem_append, hi, List.getElem_cons]
          have : i - top ≠ 0 := by omega
          simp [this]; omega
  rw [hsplit, List.map_append, List.map_cons]
  have h1 : (List.range top).map (Function.update tc top 0) = cs := by
    apply List.ext_getElem
    · simp [hlen]
    · intro i h1 h2
      simp at h1
      simp [Function.update, Nat.ne_of_lt h1, htc i h1, List.getElem?_eq_getElem h2]
  rw [h1]
  simp only [Function.update_same]
  exact takeWhile_append_zero cs _ hcs

theorem generate_codes_some (t : HuffmanNode) :
    ∀ (top : Nat) (tc : Nat → Nat) (codes : Nat → Option (List Nat)) (pre : List Bool),
      t.isNull = false → two_or_none t = true →
      (∀ e ∈ leaf_paths t, e.1 < ASCII_SIZE) →
      top + height t < MAX_TREE_HT → pre.length = top →
      (∀ i, i < top → tc i = (path_chars pre).getD i 0) →
      ∃ tc2, generate_codes t top (tc, codes) = some (tc2, put_paths codes pre (leaf_paths t)) ∧
        ∀ i, i < top → tc2 i = tc i := by
  induction t with
  | null => intro _ _ _ _ h; simp [isNull] at h
  | node d f l r ihl ihr =>
    intro top tc codes pre _ hfull hdata hh hlen htc
    simp only [two_or_none, Bool.and_eq_true, beq_iff_eq] at hfull
    obtain ⟨⟨hlr, hfl⟩, hfr⟩ := hfull
    by_cases hl : l.isNull = true
    · -- a leaf
      have hr : r.isNull = true := by rw [← hlr]; exact hl
      simp only [leaf_paths, hl, hr, Bool.and_self, if_true, List.mem_singleton,
        forall_eq] at hdata
      simp only [height, hl, hr, Bool.and_self, if_true, Nat.add_zero] at hh
      refine ⟨Function.update tc top 0, ?_, ?_⟩
      · simp only [generate_codes, hl, hr, if_true, Option.some_bind, Bool.and_self, hh, hdata,
          and_self, leaf_paths, put_paths, List.foldl_cons, List.foldl_nil, List.append_nil]
        rw [strdup_update tc top (path_chars pre) hh (by rw [path_chars_length, hlen])
          (path_chars_ne_zero pre) htc]
      · intro i hi
        simp [Function.update, Nat.ne_of_lt hi]
    · -- an internal node
      have hl' : l.isNull = false := by simpa using hl
      have hr' : r.isNull = false := by rw [← hlr]; exact hl'
      simp only [leaf_paths, hl', hr', Bool.and_self, Bool.false_eq_true, if_false,
        List.mem_append, List.mem_map] at hdata
      simp only [height, hl', hr', Bool.and_self, Bool.false_eq_true, if_false] at hh
      have htop : top < MAX_TREE_HT := by omega
      have hchars : ∀ (b : Bool) (tc0 : Nat → Nat), (∀ i, i < top → tc0 i = tc i) →
          ∀ i, i < top + 1 →
            Function.update tc0 top (if b then 49 else 48) i =
              (path_chars (pre ++ [b])).getD i 0 := by
        intro b tc0 h0 i hi
        by_cases hit : i = top
        · subst hit
          simp [path_chars, hlen, List.getD_eq_getElem?_getD, List.getElem?_append_right]
        · have hlt : i < top := by omega
          rw [Function.update_noteq hit, h0 i hlt, htc i hlt]
          simp [path_chars, List.getD_eq_getElem?_getD, List.getElem?_append_left, hlen, hlt]
      obtain ⟨tc1, hg1, htc1⟩ := ihl (top + 1) (Function.update tc top 48) codes (pre ++ [false])
        hl' hfl (fun e he => hdata (e.1, false :: e.2) (Or.inl ⟨e, he, rfl⟩))
        (by have := Nat.le_max_left (height l) (height r); omega) (by simp [hlen])
        (hchars false tc (fun _ _ => rfl))
      have htc1' : ∀ i, i < top → tc1 i = tc i := by
        intro i hi
        rw [htc1 i (by omega), Function.update_noteq (Nat.ne_of_lt hi)]
      obtain ⟨tc2, hg2, htc2⟩ := ihr (top + 1) (Function.update tc1 top 49)
        (put_paths codes (pre ++ [false]) (leaf_paths l)) (pre ++ [true])
        hr' hfr (fun e he => hdata (e.1, true :: e.2) (Or.inr ⟨e, he, rfl⟩))
        (by have := Nat.le_max_right (height l) (height r); omega) (by simp [hlen])
        (hchars true tc1 htc1')
      refine ⟨tc2, ?_, ?_⟩
      · simp only [generate_codes, hl', hr', Bool.false_eq_true, if_false, htop, if_true, hg1,
          Option.some_bind, hg2, Bool.and_self, leaf_paths, put_paths_append, put_paths_map]
      · intro i hi
        rw [htc2 i (by omega), Function.update_noteq (Nat.ne_of_lt hi), htc1' i hi]

theorem generate_codes_none (t : HuffmanNode) :
    ∀ (top : Nat) (s : (Nat → Nat) × (Nat → Option (List Nat))),
      t.isNull = false → two_or_none t = true → MAX_TREE_HT ≤ top + height t →
      generate_codes t top s = none := by
  induction t with
  | null => intro _ _ h; simp [isNull] at h
  | node d f l r ihl ihr =>
    intro top s _ hfull hh
    simp only [two_or_none, Bool.and_eq_true, beq_iff_eq] at hfull
    obtain ⟨⟨hlr, hfl⟩, hfr⟩ := hfull
    by_cases hl : l.isNull = true
    · have hr : r.isNull = true := by rw [← hlr]; exact hl
      simp only [height, hl, hr, Bool.and_self, if_true, Nat.add_zero] at hh
      have : ¬ top < MAX_TREE_HT := by omega
      simp [generate_codes, hl, hr, this]
    · have hl' : l.isNull = false := by simpa using hl
      have hr' : r.isNull = false := by rw [← hlr]; exact hl'
      simp only [height, hl', hr', Bool.and_self, Bool.false_eq_true, if_false] at hh
      by_cases htop : top < MAX_TREE_HT
      · simp only [generate_codes, hl', hr', Bool.false_eq_true, if_false, htop, if_true,
          Bool.and_self]
        cases h1 : generate_codes l (top + 1) (Function.update s.1 top 48, s.2) with
        | none => rfl
        | some s1 =>
          have hrn : MAX_TREE_HT ≤ top + 1 + height r := by
            by_contra hcon
            have hln : MAX_TREE_HT ≤ top + 1 + height l := by
              rcases Nat.le_total (height l) (height r) with h | h
              · rw [Nat.max_eq_right h] at hh; omega
              · rw [Nat.max_eq_left h] at hh; omega
            rw [ihl _ _ hl' hfl hln] at h1
            exact Option.noConfusion h1
          simp only [Option.some_bind, ihr _ _ hr' hfr hrn, Option.none_bind]
      · simp [generate_codes, hl', hr', htop]

/-! ## The height of the tree -/

theorem height_combine_le (a b : HuffmanNode) :
    height (combine a b) ≤ max (height a) (height b) + 1 := by
  simp only [combine, height]
  split
  · exact Nat.zero_le _
  · exact Nat.le_refl _

theorem height_combine (a b : HuffmanNode) (ha : a.isNull = false) :
    height (combine a b) = max (height a) (height b) + 1 := by
  simp [combine, height, ha]

theorem entry_ok_combine (a b : HuffmanNode) (ha : entry_ok a) (hb : entry_ok b) :
    entry_ok (combine a b) := by
  refine ⟨rfl, ?_, ?_⟩
  · simp [combine, two_or_none, ha.1, ha.2.1, hb.1, hb.2.1]
  · exact Nat.mod_lt _ (by decide)

theorem fib_ok_frequency {x : HuffmanNode} (hx : x.isNull = false) (h : fib_ok x) :
    Nat.fib (height x + 2) ≤ x.frequency := by
  cases x with
  | null => simp [isNull] at hx
  | node d f l r => exact h.1

theorem height_le_of_fib_ok {x : HuffmanNode} (hx : entry_ok x) (h : fib_ok x) :
    height x ≤ 45 := by
  by_contra hcon
  have h1 := fib_ok_frequency hx.1 h
  have h2 : Nat.fib 48 ≤ Nat.fib (height x + 2) := Nat.fib_mono (by omega)
  have h3 : Nat.fib 48 = 4807526976 := by decide
  have := hx.2.2
  omega

theorem wrapped_phase_step (a b : HuffmanNode) (rest : List HuffmanNode)
    (h : wrapped_phase (a :: b :: rest)) :
    wrapped_phase (insert_queue rest (combine a b)) := by
  obtain ⟨H, hH, hlen⟩ := h
  refine ⟨H + 1, ?_, ?_⟩
  · intro x hx
    rw [mem_insert_queue] at hx
    rcases hx with rfl | hx
    · have ha := hH a (by simp)
      have hb := hH b (by simp)
      have := height_combine_le a b
      have : max (height a) (height b) ≤ H := max_le ha hb
      omega
    · exact Nat.le_succ_of_le (hH x (by simp [hx]))
  · rw [insert_queue_length]
    simp at hlen
    omega

/-- The deeper child of an entry is itself bounded below by a Fibonacci number. -/
theorem fib_le_child (c : HuffmanNode) (hc : entry_ok c) (hf : fib_ok c) (hpos : 0 < height c) :
    Nat.fib (height c + 1) ≤ max c.left.frequency c.right.frequency := by
  cases c with
  | null => simp [height] at hpos
  | node d f l r =>
    have hfull := hc.2.1
    simp only [two_or_none, Bool.and_eq_true, beq_iff_eq] at hfull
    obtain ⟨⟨hlr, _⟩, _⟩ := hfull
    by_cases hl : l.isNull = true
    · have hr : r.isNull = true := by rw [← hlr]; exact hl
      simp [height, hl, hr] at hpos
    · have hl' : l.isNull = false := by simpa using hl
      have hr' : r.isNull = false := by rw [← hlr]; exact hl'
      simp only [height, hl', hr', Bool.and_self, Bool.false_eq_true, if_false,
        HuffmanNode.left, HuffmanNode.right]
      have h1 := fib_ok_frequency hl' hf.2.1
      have h2 := fib_ok_frequency hr' hf.2.2
      rcases Nat.le_total (height l) (height r) with h | h
      · rw [Nat.max_eq_right h]
        exact Nat.le_trans h2 (Nat.le_max_right _ _)
      · rw [Nat.max_eq_left h]
        exact Nat.le_trans h1 (Nat.le_max_left _ _)

theorem fib_ok_combine_aux (c s : HuffmanNode) (hc : entry_ok c) (hs : entry_ok s)
    (hfc : fib_ok c) (hfs : fib_ok s) (hh : height s ≤ height c)
    (hdom : c.left.frequency ≤ s.frequency ∧ c.right.frequency ≤ s.frequency) :
    Nat.fib (height c + 3) ≤ c.frequency + s.frequency := by
  have h1 := fib_ok_frequency hc.1 hfc
  have h2 : Nat.fib (height c + 1) ≤ s.frequency := by
    by_cases hpos : 0 < height c
    · exact Nat.le_trans (fib_le_child c hc hfc hpos) (max_le hdom.1 hdom.2)
    · have h0 : height c = 0 := by omega
      have h3 := fib_ok_frequency hs.1 hfs
      have h4 : Nat.fib (0 + 1) ≤ Nat.fib (height s + 2) := Nat.fib_mono (by omega)
      rw [h0]
      exact Nat.le_trans h4 h3
  have h3 : Nat.fib (height c + 3) = Nat.fib (height c + 1) + Nat.fib (height c + 2) :=
    Nat.fib_add_two
  omega

theorem exact_phase_step (a b : HuffmanNode) (rest : List HuffmanNode)
    (hok : ∀ x ∈ a :: b :: rest, entry_ok x)
    (h : exact_phase (a :: b :: rest))
    (hsum : a.frequency + b.frequency < 4294967296) :
    exact_phase (insert_queue rest (combine a b)) := by
  obtain ⟨hs, hq, hdom⟩ := h
  have hs' := hs
  unfold queue_sorted at hs'
  rw [List.pairwise_cons, List.pairwise_cons] at hs'
  obtain ⟨ha_le, hb_le, hrest⟩ := hs'
  have hfreq : (combine a b).frequency = a.frequency + b.frequency := by
    show (a.frequency + b.frequency) % 4294967296 = _
    exact Nat.mod_eq_of_lt hsum
  have hoka := hok a (by simp)
  have hokb := hok b (by simp)
  refine ⟨insert_queue_sorted _ _ hrest, ?_, ?_⟩
  · intro x hx
    rw [mem_insert_queue] at hx
    rcases hx with rfl | hx
    · refine ⟨?_, ?_⟩
      · refine ⟨?_, (hq a (by simp)).1, (hq b (by simp)).1⟩
        show Nat.fib (height (combine a b) + 2) ≤ (a.frequency + b.frequency) % 4294967296
        rw [height_combine a b hoka.1, Nat.mod_eq_of_lt hsum]
        rcases Nat.le_total (height a) (height b) with hab | hab
        · rw [Nat.max_eq_right hab, Nat.add_comm a.frequency]
          exact fib_ok_combine_aux b a hokb hoka (hq b (by simp)).1 (hq a (by simp)).1 hab
            (hdom a (by simp) b (by simp))
        · rw [Nat.max_eq_left hab]
          exact fib_ok_combine_aux a b hoka hokb (hq a (by simp)).1 (hq b (by simp)).1 hab
            (hdom b (by simp) a (by simp))
      · intro hleaf
        simp [combine, isLeaf, hoka.1] at hleaf
    · exact hq x (by simp [hx])
  · intro x hx y hy
    rw [mem_insert_queue] at hx hy
    have hbx : b.frequency ≤ x.frequency := by
      rcases hx with rfl | hx
      · rw [hfreq]; omega
      · exact hb_le x hx
    rcases hy with rfl | hy
    · simp only [combine, HuffmanNode.left, HuffmanNode.right]
      exact ⟨Nat.le_trans (ha_le b (by simp)) hbx, hbx⟩
    · have := hdom b (by simp) y (by simp [hy])
      exact ⟨Nat.le_trans this.1 hbx, Nat.le_trans this.2 hbx⟩

theorem leaves_length_ge (x : HuffmanNode) :
    x.isNull = false → two_or_none x = true → height x + 1 ≤ (leaves x).length := by
  induction x with
  | null => intro h; simp [isNull] at h
  | node d f l r ihl ihr =>
    intro _ hfull
    simp only [two_or_none, Bool.and_eq_true, beq_iff_eq] at hfull
    obtain ⟨⟨hlr, hfl⟩, hfr⟩ := hfull
    by_cases hl : l.isNull = true
    · have hr : r.isNull = true := by rw [← hlr]; exact hl
      simp [height, leaves, hl, hr]
    · have hl' : l.isNull = false := by simpa using hl
      have hr' : r.isNull = false := by rw [← hlr]; exact hl'
      have h1 := ihl hl' hfl
      have h2 := ihr hr' hfr
      simp only [height, leaves, hl', hr', Bool.and_self, Bool.false_eq_true, if_false,
        List.length_append]
      rcases Nat.le_total (height l) (height r) with h | h
      · rw [Nat.max_eq_right h]; omega
      · rw [Nat.max_eq_left h]; omega

theorem leaves_length_ge_two (x : HuffmanNode) (hx : x.isNull = false)
    (hfull : two_or_none x = true) (hleaf : x.isLeaf = false) : 2 ≤ (leaves x).length := by
  cases x with
  | null => simp [isNull] at hx
  | node d f l r =>
    simp only [two_or_none, Bool.and_eq_true, beq_iff_eq] at hfull
    obtain ⟨⟨hlr, hfl⟩, hfr⟩ := hfull
    by_cases hl : l.isNull = true
    · have hr : r.isNull = true := by rw [← hlr]; exact hl
      simp [isLeaf, hl, hr] at hleaf
    · have hl' : l.isNull = false := by simpa using hl
      have hr' : r.isNull = false := by rw [← hlr]; exact hl'
      have h1 := leaves_length_ge l hl' hfl
      have h2 := leaves_length_ge r hr' hfr
      simp only [leaves, hl', hr', Bool.and_self, Bool.false_eq_true, if_false,
        List.length_append]
      omega

/-- Counting leaves: a queue of internal nodes of bounded height. -/
theorem count_bound (B : Nat) (q : List HuffmanNode)
    (hq : ∀ x ∈ q, x.isNull = false ∧ two_or_none x = true ∧ x.isLeaf = false ∧ height x ≤ B) :
    ∃ H, (∀ x ∈ q, height x ≤ H) ∧ H ≤ B ∧ 2 * q.length ≤ (q.flatMap leaves).length ∧
      2 * q.length + H ≤ (q.flatMap leaves).length + 1 := by
  induction q with
  | nil => exact ⟨0, by simp, Nat.zero_le _, by simp, by simp⟩
  | cons t q ih =>
    obtain ⟨H, hH, hB, h2, h3⟩ := ih (fun x hx => hq x (by simp [hx]))
    obtain ⟨htn, htf, htl, htB⟩ := hq t (by simp)
    have g1 := leaves_length_ge t htn htf
    have g2 := leaves_length_ge_two t htn htf htl
    refine ⟨max (height t) H, ?_, max_le htB hB, ?_, ?_⟩
    · intro x hx
      rw [List.mem_cons] at hx
      rcases hx with rfl | hx
      · exact Nat.le_max_left _ _
      · exact Nat.le_trans (hH x hx) (Nat.le_max_right _ _)
    · simp only [List.length_cons, List.flatMap_cons, List.length_append]
      omega
    · simp only [List.length_cons, List.flatMap_cons, List.length_append]
      rcases Nat.le_total (height t) H with h | h
      · rw [Nat.max_eq_right h]; omega
      · rw [Nat.max_eq_left h]; omega

theorem wrap_step (a b : HuffmanNode) (rest : List HuffmanNode)
    (hok : ∀ x ∈ a :: b :: rest, entry_ok x)
    (h : exact_phase (a :: b :: rest))
    (hleaves : ((a :: b :: rest).flatMap leaves).length ≤ ASCII_SIZE)
    (hsum : 4294967296 ≤ a.frequency + b.frequency) :
    wrapped_phase (insert_queue rest (combine a b)) := by
  obtain ⟨hs, hq, _⟩ := h
  unfold queue_sorted at hs
  rw [List.pairwise_cons, List.pairwise_cons] at hs
  obtain ⟨ha_le, hb_le, _⟩ := hs
  have hoka := hok a (by simp)
  have hokb := hok b (by simp)
  have hab := ha_le b (by simp)
  have hha := height_le_of_fib_ok hoka (hq a (by simp)).1
  have hhb := height_le_of_fib_ok hokb (hq b (by simp)).1
  have hcount := count_bound 46 (combine a b :: rest) (by
    intro x hx
    rw [List.mem_cons] at hx
    rcases hx with rfl | hx
    · refine ⟨rfl, (entry_ok_combine a b hoka hokb).2.1, ?_, ?_⟩
      · simp [combine, isLeaf, hoka.1]
      · have := height_combine_le a b
        have : max (height a) (height b) ≤ 45 := max_le hha hhb
        omega
    · have hokx := hok x (by simp [hx])
      refine ⟨hokx.1, hokx.2.1, ?_, ?_⟩
      · by_contra hl
        have hl' : x.isLeaf = true := by simpa using hl
        have := (hq x (by simp [hx])).2 hl'
        have := hb_le x hx
        omega
      · exact Nat.le_succ_of_le (height_le_of_fib_ok hokx (hq x (by simp [hx])).1))
  obtain ⟨H, hH, hB, _, h3⟩ := hcount
  have hl : ((combine a b :: rest).flatMap leaves).length ≤ ASCII_SIZE := by
    simp only [List.flatMap_cons, leaves_combine a b hoka.1] at hleaves ⊢
    simpa [List.append_assoc] using hleaves
  refine ⟨H, ?_, ?_⟩
  · intro x hx
    rw [mem_insert_queue] at hx
    exact hH x (by simpa using hx)
  · rw [insert_queue_length]
    simp only [List.length_cons] at h3
    unfold ASCII_SIZE at hl
    unfold MAX_TREE_HT
    omega

theorem phase_invariant (k : Nat) (q : List HuffmanNode)
    (hok : ∀ x ∈ q, entry_ok x) (hleaves : (q.flatMap leaves).length ≤ ASCII_SIZE)
    (h : exact_phase q ∨ wrapped_phase q) :
    exact_phase (combine_loop k q) ∨ wrapped_phase (combine_loop k q) := by
  induction k generalizing q with
  | zero => exact h
  | succ k ih =>
    match q, hok, hleaves, h with
    | [], _, _, h => exact h
    | [_], _, _, h => exact h
    | a :: b :: rest, hok, hleaves, h =>
      simp only [combine_loop]
      have hoka := hok a (by simp)
      have hokb := hok b (by simp)
      apply ih
      · intro x hx
        rw [mem_insert_queue] at hx
        rcases hx with rfl | hx
        · exact entry_ok_combine a b hoka hokb
        · exact hok x (by simp [hx])
      · rw [((insert_queue_perm rest (combine a b)).flatMap_right leaves).length_eq]
        simp only [List.flatMap_cons, leaves_combine a b hoka.1] at hleaves ⊢
        simpa [List.append_assoc] using hleaves
      · rcases h with h | h
        · by_cases hsum : a.frequency + b.frequency < 4294967296
          · exact Or.inl (exact_phase_step a b rest hok h hsum)
          · exact Or.inr (wrap_step a b rest hok h hleaves (by omega))
        · exact Or.inr (wrapped_phase_step a b rest h)

theorem toUnsigned_lt (x : Int) : toUnsigned x < 4294967296 := by
  unfold toUnsigned
  have h1 : 0 ≤ x % 4294967296 := Int.emod_nonneg _ (by decide)
  have h2 : x % 4294967296 < 4294967296 := Int.emod_lt_of_pos _ (by decide)
  omega

theorem build_height_lt (freq : Nat → Int)
    (hrange : ∀ i, i < ASCII_SIZE → 0 ≤ freq i ∧ freq i < 2147483648) :
    height (build_huffman_tree freq) < MAX_TREE_HT := by
  rcases build_cases freq with ⟨h, _⟩ | ⟨hn, hfin⟩
  · rw [h]; decide
  · have hunsigned : ∀ i, i < ASCII_SIZE → freq i ≠ 0 →
        1 ≤ toUnsigned (freq i) ∧ toUnsigned (freq i) < 2147483648 := by
      intro i hi hne
      have := toUnsigned_of_range (hrange i hi).1 (hrange i hi).2
      have := hrange i hi
      omega
    have hok0 : ∀ x ∈ initial_queue freq, entry_ok x := by
      intro x hx
      obtain ⟨i, _, _, rfl⟩ := mem_leaf_queue hx
      exact ⟨rfl, rfl, toUnsigned_lt _⟩
    have hinv := phase_invariant (initial_queue freq).length (initial_queue freq) hok0
      (by
        unfold initial_queue
        rw [(leaf_queue_leaves freq ASCII_SIZE).length_eq]
        unfold table_leaves
        rw [List.length_map]
        exact Nat.le_trans (List.length_filter_le _ _) (by simp))
      (Or.inl ⟨leaf_queue_sorted freq _, by
        intro x hx
        obtain ⟨i, hi, hne, rfl⟩ := mem_leaf_queue hx
        have := hunsigned i hi hne
        refine ⟨⟨?_, trivial, trivial⟩, fun _ => this.2⟩
        show Nat.fib 2 ≤ toUnsigned (freq i)
        rw [Nat.fib_two]
        exact this.1, by
        intro x _ y hy
        obtain ⟨i, _, _, rfl⟩ := mem_leaf_queue hy
        exact ⟨Nat.zero_le _, Nat.zero_le _⟩⟩)
    have hokf : entry_ok (build_huffman_tree freq) :=
      combine_loop_induction entry_ok entry_ok_combine _ _ hok0 _
        (by show build_huffman_tree freq ∈ final_queue freq; rw [hfin]; simp)
    change exact_phase (final_queue freq) ∨ wrapped_phase (final_queue freq) at hinv
    rw [hfin] at hinv
    rcases hinv with h | h
    · have := height_le_of_fib_ok hokf (h.2.1 _ (by simp)).1
      unfold MAX_TREE_HT
      omega
    · obtain ⟨H, hH, hlen⟩ := h
      have := hH _ (List.mem_singleton.2 rfl)
      simp only [List.length_singleton] at hlen
      omega

theorem put_paths_not_mem (pre : List Bool) (ps : List (Nat × List Bool)) :
    ∀ (codes : Nat → Option (List Nat)) (s : Nat), s ∉ ps.map Prod.fst →
      put_paths codes pre ps s = codes s := by
  induction ps with
  | nil => intro _ _ _; rfl
  | cons e ps ih =>
    intro codes s hs
    simp only [List.map_cons, List.mem_cons, not_or] at hs
    show put_paths (Function.update codes e.1 _) pre ps s = codes s
    rw [ih _ s hs.2, Function.update_noteq hs.1]

theorem put_paths_mem (pre : List Bool) (ps : List (Nat × List Bool)) :
    ∀ (codes : Nat → Option (List Nat)), (ps.map Prod.fst).Nodup → ∀ e ∈ ps,
      put_paths codes pre ps e.1 = some (path_chars (pre ++ e.2)) := by
  induction ps with
  | nil => intro _ _ e he; simp at he
  | cons a ps ih =>
    intro codes hnd e he
    simp only [List.map_cons, List.nodup_cons] at hnd
    show put_paths (Function.update codes a.1 _) pre ps e.1 = _
    rw [List.mem_cons] at he
    rcases he with rfl | he
    · rw [put_paths_not_mem pre ps _ _ hnd.1, Function.update_same]
    · exact ih _ hnd.2 e he

theorem leaf_paths_fst (t : HuffmanNode) :
    (leaf_paths t).map Prod.fst = (leaves t).map Prod.fst := by
  induction t with
  | null => rfl
  | node d f l r ihl ihr =>
    simp only [leaf_paths, leaves]
    split
    · rfl
    · simp [List.map_append, List.map_map, Function.comp_def, ← ihl, ← ihr]

theorem leaf_paths_unambiguous (t : HuffmanNode) :
    ∀ e1 ∈ leaf_paths t, ∀ e2 ∈ leaf_paths t, e1.2 <+: e2.2 → e1 = e2 := by
  induction t with
  | null => intro e1 h; simp [leaf_paths] at h
  | node d f l r ihl ihr =>
    intro e1 h1 e2 h2 hp
    simp only [leaf_paths] at h1 h2
    by_cases hleaf : (l.isNull && r.isNull) = true
    · rw [if_pos hleaf, List.mem_singleton] at h1 h2
      rw [h1, h2]
    · rw [if_neg hleaf] at h1 h2
      simp only [List.mem_append, List.mem_map] at h1 h2
      rcases h1 with ⟨a1, ha1, rfl⟩ | ⟨a1, ha1, rfl⟩ <;>
        rcases h2 with ⟨a2, ha2, rfl⟩ | ⟨a2, ha2, rfl⟩
      · have := ihl a1 ha1 a2 ha2 ((List.cons_prefix_cons.1 hp).2)
        rw [this]
      · exact absurd (List.cons_prefix_cons.1 hp).1 (by decide)
      · exact absurd (List.cons_prefix_cons.1 hp).1 (by decide)
      · have := ihr a1 ha1 a2 ha2 ((List.cons_prefix_cons.1 hp).2)
        rw [this]

theorem path_chars_starts {p q : List Bool} (h : path_chars p <+: path_chars q) : p <+: q := by
  induction p generalizing q with
  | nil => exact List.nil_prefix
  | cons a p ih =>
    cases q with
    | nil => simp [path_chars] at h
    | cons b q =>
      simp only [path_chars, List.map_cons] at h
      obtain ⟨hab, hrest⟩ := List.cons_prefix_cons.1 h
      have : a = b := by
        cases a <;> cases b <;> simp at hab ⊢
      rw [this]
      exact List.cons_prefix_cons.2 ⟨rfl, ih hrest⟩

theorem build_leaf_symbols (freq : Nat → Int) :
    ((leaf_paths (build_huffman_tree freq)).map Prod.fst).Nodup ∧
    ∀ s, s ∈ (leaf_paths (build_huffman_tree freq)).map Prod.fst ↔ s < ASCII_SIZE ∧ freq s ≠ 0 := by
  have hp := (build_leaves freq).map Prod.fst
  rw [leaf_paths_fst]
  refine ⟨hp.nodup_iff.2 (table_leaves_fst_nodup freq _), ?_⟩
  intro s
  rw [hp.mem_iff]
  unfold table_leaves
  simp [List.mem_map, List.mem_filter]

/-- Code generation on the tree of a table of non-negative counts: the run stays inside
`temp_code` and binds every leaf to its path. -/
theorem generate_codes_build (freq : Nat → Int) (tc : Nat → Nat)
    (codes : Nat → Option (List Nat))
    (hrange : ∀ i, i < ASCII_SIZE → 0 ≤ freq i ∧ freq i < 2147483648)
    (hn : (build_huffman_tree freq).isNull = false) :
    ∃ tc2, generate_codes (build_huffman_tree freq) 0 (tc, codes) =
      some (tc2, put_paths codes [] (leaf_paths (build_huffman_tree freq))) := by
  obtain ⟨tc2, h, _⟩ := generate_codes_some (build_huffman_tree freq) 0 tc codes [] hn
    (build_two_or_none freq)
    (fun e he => ((build_leaf_symbols freq).2 e.1).1 (List.mem_map_of_mem _ he) |>.1)
    (by simpa using build_height_lt freq hrange) rfl (fun i hi => absurd hi (Nat.not_lt_zero i))
  exact ⟨tc2, h⟩

theorem put_paths_build (freq : Nat → Int) (codes : Nat → Option (List Nat)) :
    (∀ e ∈ leaf_paths (build_huffman_tree freq),
      put_paths codes [] (leaf_paths (build_huffman_tree freq)) e.1 = some (path_chars e.2)) ∧
    (∀ s, s ∉ (leaf_paths (build_huffman_tree freq)).map Prod.fst →
      put_paths codes [] (leaf_paths (build_huffman_tree freq)) s = codes s) :=
  ⟨fun e he => by
      simpa using put_paths_mem [] _ codes (build_leaf_symbols freq).1 e he,
    fun s hs => put_paths_not_mem [] _ codes s hs⟩

theorem build_not_null_of_nonzero (freq : Nat → Int) (hne : ∃ i, i < ASCII_SIZE ∧ freq i ≠ 0) :
    (build_huffman_tree freq).isNull = false := by
  obtain ⟨d, f, l, r, _, hb⟩ := build_of_nonzero freq hne
  rw [hb]; rfl

/-- Whatever table a run of `generate_codes` on the built tree returns is the table of the
root-to-leaf paths laid over the starting table. -/
theorem generate_codes_build_result (freq : Nat → Int) (tc : Nat → Nat)
    (codes : Nat → Option (List Nat)) (hn : (build_huffman_tree freq).isNull = false)
    (r : (Nat → Nat) × (Nat → Option (List Nat)))
    (h : generate_codes (build_huffman_tree freq) 0 (tc, codes) = some r) :
    r.2 = put_paths codes [] (leaf_paths (build_huffman_tree freq)) := by
  by_cases hh : height (build_huffman_tree freq) < MAX_TREE_HT
  · obtain ⟨tc2, h2, _⟩ := generate_codes_some (build_huffman_tree freq) 0 tc codes [] hn
      (build_two_or_none freq)
      (fun e he => ((build_leaf_symbols freq).2 e.1).1 (List.mem_map_of_mem _ he) |>.1)
      (by simpa using hh) rfl (fun i hi => absurd hi (Nat.not_lt_zero i))
    rw [h2] at h
    rw [← Option.some.inj h]
  · rw [generate_codes_none _ 0 _ hn (build_two_or_none freq) (by simpa using hh)] at h
    exact Option.noConfusion h

theorem put_paths_prefix_free (freq : Nat → Int) (s1 s2 : Nat) (c1 c2 : List Nat)
    (hne12 : s1 ≠ s2)
    (h1 : put_paths (fun _ => none) [] (leaf_paths (build_huffman_tree freq)) s1 = some c1)
    (h2 : put_paths (fun _ => none) [] (leaf_paths (build_huffman_tree freq)) s2 = some c2) :
    ¬ c1 <+: c2 := by
  intro hp
  have key : ∀ s c, put_paths (fun _ => none) [] (leaf_paths (build_huffman_tree freq)) s = some c →
      ∃ e ∈ leaf_paths (build_huffman_tree freq), e.1 = s ∧ c = path_chars e.2 := by
    intro s c hs
    by_cases hmem : s ∈ (leaf_paths (build_huffman_tree freq)).map Prod.fst
    · rw [List.mem_map] at hmem
      obtain ⟨e, he, rfl⟩ := hmem
      rw [(put_paths_build freq _).1 e he] at hs
      exact ⟨e, he, rfl, (Option.some.inj hs).symm⟩
    · rw [(put_paths_build freq _).2 s hmem] at hs
      exact Option.noConfusion hs
  obtain ⟨e1, he1, rfl, rfl⟩ := key s1 c1 h1
  obtain ⟨e2, he2, rfl, rfl⟩ := key s2 c2 h2
  have := leaf_paths_unambiguous _ e1 he1 e2 he2 (path_chars_starts hp)
  exact hne12 (by rw [this])

/-! ## Claims on the code table -/

/-- C10: for every table with a non-zero count, any run of `generate_codes` from index 0 on
the tree of `build_huffman_tree`, started from the empty code table, returns a table that
binds the symbol of every leaf to the characters of its path from the root ('0' for a step
to the left, '1' for a step to the right) and gives no entry to any other symbol; the leaf
symbols are pairwise different, so there is one entry per leaf. The run returns a table
(it stays inside `temp_code`) for every table of non-negative `int` counts. -/
theorem generate_codes_binds_paths (freq : Nat → Int) (tc : Nat → Nat)
    (hne : ∃ i, i < ASCII_SIZE ∧ freq i ≠ 0) :
    (∀ r, generate_codes (build_huffman_tree freq) 0 (tc, fun _ => none) = some r →
      (∀ e ∈ leaf_paths (build_huffman_tree freq), r.2 e.1 = some (path_chars e.2)) ∧
      (∀ s, s ∉ (leaf_paths (build_huffman_tree freq)).map Prod.fst → r.2 s = none)) ∧
    ((leaf_paths (build_huffman_tree freq)).map Prod.fst).Nodup ∧
    ((∀ i, i < ASCII_SIZE → 0 ≤ freq i ∧ freq i < 2147483648) →
      ∃ r, generate_codes (build_huffman_tree freq) 0 (tc, fun _ => none) = some r) := by
  have hn := build_not_null_of_nonzero freq hne
  refine ⟨?_, (build_leaf_symbols freq).1, ?_⟩
  · intro r hr
    rw [generate_codes_build_result freq tc _ hn r hr]
    exact put_paths_build freq _
  · intro hrange
    obtain ⟨tc2, h⟩ := generate_codes_build freq tc (fun _ => none) hrange hn
    exact ⟨_, h⟩

/-- C3: for every table with a non-zero count, in the code table returned by a run of
`generate_codes` on the tree of `build_huffman_tree`, started from the empty code table, the
code of a symbol is never a leading part of the code of a different symbol. The run returns
a table (it stays inside `temp_code`) for every table of non-negative `int` counts. -/
theorem codes_prefix_free (freq : Nat → Int) (tc : Nat → Nat)
    (hne : ∃ i, i < ASCII_SIZE ∧ freq i ≠ 0) :
    (∀ r, generate_codes (build_huffman_tree freq) 0 (tc, fun _ => none) = some r →
      ∀ s1 s2 c1 c2, s1 ≠ s2 → r.2 s1 = some c1 → r.2 s2 = some c2 → ¬ c1 <+: c2) ∧
    ((∀ i, i < ASCII_SIZE → 0 ≤ freq i ∧ freq i < 2147483648) →
      ∃ r, generate_codes (build_huffman_tree freq) 0 (tc, fun _ => none) = some r) := by
  have hn := build_not_null_of_nonzero freq hne
  refine ⟨?_, ?_⟩
  · intro r hr s1 s2 c1 c2 hne12 h1 h2
    rw [generate_codes_build_result freq tc _ hn r hr] at h1 h2
    exact put_paths_prefix_free freq s1 s2 c1 c2 hne12 h1 h2
  · intro hrange
    obtain ⟨tc2, h⟩ := generate_codes_build freq tc (fun _ => none) hrange hn
    exact ⟨_, h⟩

/-! ## Single-symbol tables and frequency counting -/

theorem leaf_queue_congr (f g : Nat → Int) (m : Nat) (h : ∀ i, i < m → f i = g i) :
    leaf_queue f m = leaf_queue g m := by
  induction m with
  | zero => rfl
  | succ m ih =>
    rw [leaf_queue_succ, leaf_queue_succ, ih (fun i hi => h i (Nat.lt_succ_of_lt hi)),
      h m (Nat.lt_succ_self m)]

theorem build_congr (f g : Nat → Int) (h : ∀ i, i < ASCII_SIZE → f i = g i) :
    build_huffman_tree f = build_huffman_tree g := by
  unfold build_huffman_tree initial_queue
  rw [leaf_queue_congr f g ASCII_SIZE h]

theorem leaf_queue_single (freq : Nat → Int) (s : Nat) (hnz : freq s ≠ 0) (m : Nat)
    (hz : ∀ i, i < m → i ≠ s → freq i = 0) :
    leaf_queue freq m = if s < m then [create_node s (toUnsigned (freq s))] else [] := by
  induction m with
  | zero => rfl
  | succ m ih =>
    rw [leaf_queue_succ, ih (fun i hi => hz i (Nat.lt_succ_of_lt hi))]
    by_cases hm : m = s
    · subst hm
      simp [hnz, insert_queue]
    · have h0 := hz m (Nat.lt_succ_self m) hm
      simp only [h0, ne_eq, not_true_eq_false, if_false]
      by_cases hlt : s < m
      · simp [hlt, Nat.lt_succ_of_lt hlt]
      · have : ¬ s < m + 1 := by omega
        simp [hlt, this]

theorem build_single (freq : Nat → Int) (s : Nat) (hs : s < ASCII_SIZE) (hnz : freq s ≠ 0)
    (hz : ∀ i, i < ASCII_SIZE → i ≠ s → freq i = 0) :
    build_huffman_tree freq = create_node s (toUnsigned (freq s)) := by
  unfold build_huffman_tree initial_queue
  rw [leaf_queue_single freq s hnz ASCII_SIZE hz]
  simp [hs, combine_loop]

theorem generate_codes_leaf (s f : Nat) (hs : s < ASCII_SIZE) (tc : Nat → Nat)
    (codes : Nat → Option (List Nat)) :
    generate_codes (create_node s f) 0 (tc, codes) =
      some (Function.update tc 0 0, Function.update codes s (some [])) := by
  have hstr : strdup (Function.update tc 0 0) = [] :=
    strdup_update tc 0 [] (by decide) rfl (by simp) (fun i hi => absurd hi (Nat.not_lt_zero i))
  have h0 : 0 < MAX_TREE_HT := by decide
  simp [generate_codes, create_node, isNull, hs, hstr, h0]

theorem int_incr_eq {x : Int} (h0 : 0 ≤ x) (h1 : x + 1 < 2147483648) : int_incr x = x + 1 := by
  unfold int_incr
  omega

theorem calculate_frequency_cons (freq : Nat → Int) (c : Nat) (cs : List Nat) :
    calculate_frequency freq (c :: cs) =
      calculate_frequency
        (if c < ASCII_SIZE then Function.update freq c (int_incr (freq c)) else freq) cs := rfl

theorem calculate_frequency_eq (input : List Nat) :
    ∀ (freq : Nat → Int), (∀ i, 0 ≤ freq i) →
      (∀ i, i < ASCII_SIZE → freq i + (input.count i : Int) < 2147483648) →
      ∀ i, calculate_frequency freq input i =
        freq i + if i < ASCII_SIZE then (input.count i : Int) else 0 := by
  induction input with
  | nil => intro freq _ _ i; simp [calculate_frequency]
  | cons c cs ih =>
    intro freq h0 hcnt i
    rw [calculate_frequency_cons]
    by_cases hc : c < ASCII_SIZE
    · have hcc := hcnt c hc
      simp only [List.count_cons_self, Nat.cast_add, Nat.cast_one] at hcc
      have hinc := int_incr_eq (h0 c) (by omega)
      simp only [hc, if_true]
      rw [ih]
      · by_cases hi : i = c
        · subst hi
          simp [hc, hinc, List.count_cons]
          omega
        · have hci : ¬ c = i := fun h => hi h.symm
          rw [Function.update_noteq hi]
          simp [List.count_cons, hci]
      · intro j
        by_cases hj : j = c
        · subst hj; rw [Function.update_same, hinc]; have := h0 j; omega
        · rw [Function.update_noteq hj]; exact h0 j
      · intro j hj128
        by_cases hj : j = c
        · subst hj; rw [Function.update_same, hinc]; omega
        · rw [Function.update_noteq hj]
          have := hcnt j hj128
          have hcj : ¬ c = j := fun h => hj h.symm
          simpa [List.count_cons, hcj] using this
    · simp only [hc, if_false]
      have hne : ∀ j, j < ASCII_SIZE → ¬ c = j := fun j hj h => hc (h ▸ hj)
      rw [ih freq h0 (fun j hj => by
        have := hcnt j hj
        simpa [List.count_cons, hne j hj] using this)]
      by_cases hi : i < ASCII_SIZE
      · simp [hi, List.count_cons, hne i hi]
      · simp [hi]

/-! ## Bit packing -/

set_option maxRecDepth 100000 in
theorem shift_in_bit : ∀ bc, bc < 8 → ∀ buf, buf < 2 ^ bc → ∀ b, b < 2 →
    ((buf <<< 1) ||| b) % 256 < 2 ^ (bc + 1) ∧
    (byte_bits (((buf <<< 1) ||| b) % 256)).drop (8 - (bc + 1)) =
      (byte_bits buf).drop (8 - bc) ++ [b] := by
  decide

set_option maxRecDepth 100000 in
theorem shift_pad : ∀ bc, bc < 8 → ∀ buf, buf < 2 ^ bc →
    byte_bits ((buf <<< (8 - bc)) % 256) =
      (byte_bits buf).drop (8 - bc) ++ List.replicate (8 - bc) 0 := by
  decide

theorem path_chars_bits (p : List Bool) : (path_chars p).map (fun ch => ch - 48) = path_bits p := by
  induction p with
  | nil => rfl
  | cons b p ih =>
    simp only [path_chars, path_bits, List.map_cons, List.map_map] at ih ⊢
    cases b <;> simp [ih]

theorem state_ok_init : state_ok (0, 0, []) := by
  constructor <;> decide

theorem state_bits_init : state_bits (0, 0, []) = [] := by decide

theorem put_bit_spec (s : Nat × Nat × List Nat) (b : Bool) (hok : state_ok s) :
    state_ok (put_bit s (if b then 49 else 48)) ∧
    state_bits (put_bit s (if b then 49 else 48)) = state_bits s ++ [if b then 1 else 0] := by
  obtain ⟨buf, bc, out⟩ := s
  obtain ⟨hbc, hbuf⟩ := hok
  simp only at hbc hbuf
  have hb : (if b then 49 else 48) - 48 = (if b then 1 else 0 : Nat) := by cases b <;> rfl
  have hlt : (if b then 1 else 0 : Nat) < 2 := by cases b <;> decide
  have key := shift_in_bit bc hbc buf hbuf _ hlt
  simp only [put_bit, hb]
  by_cases h8 : bc + 1 = 8
  · simp only [h8, if_true]
    refine ⟨⟨show 0 < 8 by decide, show 0 < 2 ^ 0 by decide⟩, ?_⟩
    have k2 := key.2
    rw [h8] at k2
    simp only [state_bits, List.flatMap_append, List.flatMap_cons, List.flatMap_nil,
      List.append_nil, List.append_assoc]
    simp only [Nat.sub_self, List.drop_zero] at k2
    rw [k2]
    simp [byte_bits]
  · simp only [h8, if_false]
    refine ⟨⟨show bc + 1 < 8 by omega, key.1⟩, ?_⟩
    simp only [state_bits, List.append_assoc]
    rw [key.2]

theorem put_code_spec (p : List Bool) :
    ∀ s, state_ok s → state_ok (put_code (path_chars p) s) ∧
      state_bits (put_code (path_chars p) s) = state_bits s ++ path_bits p := by
  induction p with
  | nil => intro s hs; exact ⟨hs, by simp [put_code, path_chars, path_bits]⟩
  | cons b p ih =>
    intro s hs
    have h1 := put_bit_spec s b hs
    have h2 := ih _ h1.1
    have hstep : put_code (path_chars (b :: p)) s =
        put_code (path_chars p) (put_bit s (if b then 49 else 48)) := by
      simp [put_code, path_chars]
    rw [hstep]
    refine ⟨h2.1, ?_⟩
    rw [h2.2, h1.2]
    simp [path_bits]

theorem write_loop_spec (codes : Nat → Option (List Nat)) (input : List Nat) :
    ∀ s, (∀ c ∈ input, c < ASCII_SIZE ∧ ∃ p, codes c = some (path_chars p)) → state_ok s →
      ∃ s2, write_loop codes input s = some s2 ∧ state_ok s2 ∧
        state_bits s2 = state_bits s ++ code_bits codes input := by
  induction input with
  | nil => intro s _ hs; exact ⟨s, rfl, hs, by simp [code_bits]⟩
  | cons c cs ih =>
    intro s hin hs
    obtain ⟨hc, p, hp⟩ := hin c (by simp)
    have h1 := put_code_spec p s hs
    obtain ⟨s2, hw, hok2, hb2⟩ := ih _ (fun x hx => hin x (by simp [hx])) h1.1
    refine ⟨s2, ?_, hok2, ?_⟩
    · simp only [write_loop, hc, if_true, hp]
      exact hw
    · rw [hb2, h1.2]
      simp [code_bits, hp, path_chars_bits]

theorem byte_bits_length (buf : Nat) : (byte_bits buf).length = 8 := by
  simp [byte_bits]

theorem flatMap_byte_bits_length (bytes : List Nat) :
    (bytes.flatMap byte_bits).length = 8 * bytes.length := by
  induction bytes with
  | nil => rfl
  | cons b bs ih =>
    simp only [List.flatMap_cons, List.length_append, byte_bits_length, ih, List.length_cons]
    omega

theorem write_payload_spec (codes : Nat → Option (List Nat)) (input : List Nat)
    (hin : ∀ c ∈ input, c < ASCII_SIZE ∧ ∃ p, codes c = some (path_chars p)) :
    ∃ payload k, write_payload codes input = some payload ∧ k < 8 ∧
      payload.flatMap byte_bits = code_bits codes input ++ List.replicate k 0 := by
  obtain ⟨⟨buf, bc, out⟩, hw, hok, hb⟩ := write_loop_spec codes input (0, 0, []) hin state_ok_init
  rw [state_bits_init, List.nil_append] at hb
  obtain ⟨hbc, hbuf⟩ := hok
  simp only at hbc hbuf
  simp only [state_bits] at hb
  by_cases h0 : bc > 0
  · refine ⟨out ++ [(buf <<< (8 - bc)) % 256], 8 - bc, ?_, by omega, ?_⟩
    · simp [write_payload, hw, h0]
    · rw [List.flatMap_append, List.flatMap_cons, List.flatMap_nil, List.append_nil,
        shift_pad bc hbc buf hbuf, ← List.append_assoc, hb]
  · have hbc0 : bc = 0 := by omega
    subst hbc0
    refine ⟨out, 0, ?_, by decide, ?_⟩
    · simp [write_payload, hw]
    · rw [← hb]
      simp [byte_bits_length]

/-! ## The walk of `decode` -/

theorem decode_bits_append (root : HuffmanNode) (a b : List Nat) :
    ∀ s, decode_bits root (a ++ b) s = (decode_bits root a s).bind (decode_bits root b) := by
  induction a with
  | nil => intro s; rfl
  | cons x a ih =>
    intro s
    simp only [List.cons_append, decode_bits]
    cases decode_bit root x s with
    | none => rfl
    | some s2 => exact ih s2

theorem decode_loop_eq (root : HuffmanNode) (bytes : List Nat) :
    ∀ s, decode_loop root bytes s = decode_bits root (bytes.flatMap byte_bits) s := by
  induction bytes with
  | nil => intro s; rfl
  | cons b bs ih =>
    intro s
    simp only [decode_loop, List.flatMap_cons, decode_bits_append]
    cases decode_bits root (byte_bits b) s with
    | none => rfl
    | some s2 => exact ih s2

theorem walk_ok_children {d f : Nat} {l r : HuffmanNode} (h : walk_ok (node d f l r)) :
    l.isNull = false ∧ r.isNull = false ∧ two_or_none l = true ∧ two_or_none r = true := by
  obtain ⟨_, hleaf, hfull⟩ := h
  simp only [two_or_none, Bool.and_eq_true, beq_iff_eq] at hfull
  obtain ⟨⟨hlr, hfl⟩, hfr⟩ := hfull
  simp only [isLeaf] at hleaf
  have hl : l.isNull = false := by
    cases hl : l.isNull
    · rfl
    · rw [hl] at hlr; rw [hl, ← hlr] at hleaf; simp at hleaf
  exact ⟨hl, by rw [← hlr]; exact hl, hfl, hfr⟩

theorem decode_bits_path (root : HuffmanNode) (t : HuffmanNode) :
    ∀ (e : Nat × List Bool) (out rest : List Nat), walk_ok t → e ∈ leaf_paths t →
      decode_bits root (path_bits e.2 ++ rest) (t, out) =
        decode_bits root rest (root, out ++ [e.1]) := by
  induction t with
  | null => intro _ _ _ h; simp [walk_ok, isNull] at h
  | node d f l r ihl ihr =>
    intro e out rest hw he
    obtain ⟨hl, hr, hfl, hfr⟩ := walk_ok_children hw
    simp only [leaf_paths, hl, hr, Bool.and_self, Bool.false_eq_true, if_false,
      List.mem_append, List.mem_map] at he
    have step : ∀ (c : HuffmanNode) (b : Bool) (e2 : Nat × List Bool),
        c.isNull = false → two_or_none c = true → (if b then r else l) = c →
        e2 ∈ leaf_paths c →
        (∀ (out rest : List Nat), walk_ok c →
          decode_bits root (path_bits e2.2 ++ rest) (c, out) =
            decode_bits root rest (root, out ++ [e2.1])) →
        decode_bits root (path_bits (b :: e2.2) ++ rest) (node d f l r, out) =
          decode_bits root rest (root, out ++ [e2.1]) := by
      intro c b e2 hc hfc hsel he2 ih
      cases c with
      | null => simp [isNull] at hc
      | node d2 f2 l2 r2 =>
        have hbit : ((if b then 1 else 0 : Nat) ≠ 0) = (b = true) := by cases b <;> simp
        have hsel2 : (if (if b then 1 else 0 : Nat) ≠ 0 then r else l) = node d2 f2 l2 r2 := by
          rw [← hsel]; cases b <;> simp
        simp only [path_bits, List.map_cons, List.cons_append, decode_bits, decode_bit, hsel2]
        by_cases hleaf : (l2.isNull && r2.isNull) = true
        · simp only [hleaf, if_true, Option.some_bind]
          simp only [leaf_paths, hleaf, if_true, List.mem_singleton] at he2
          rw [he2]
          rfl
        · simp only [hleaf, if_false, Option.some_bind]
          have hw2 : walk_ok (node d2 f2 l2 r2) := ⟨rfl, by simpa [isLeaf] using hleaf, hfc⟩
          exact ih out rest hw2
    rcases he with ⟨a, ha, rfl⟩ | ⟨a, ha, rfl⟩
    · exact step l false a hl hfl rfl ha (fun out rest hw2 => ihl a out rest hw2 ha)
    · exact step r true a hr hfr rfl ha (fun out rest hw2 => ihr a out rest hw2 ha)

theorem decode_bit_ok (root t : HuffmanNode) (b : Nat) (out : List Nat)
    (hroot : walk_ok root) (ht : walk_ok t) :
    ∃ t2 extra, decode_bit root b (t, out) = some (t2, out ++ extra) ∧ walk_ok t2 ∧
      extra.length ≤ 1 := by
  cases t with
  | null => simp [walk_ok, isNull] at ht
  | node d f l r =>
    obtain ⟨hl, hr, hfl, hfr⟩ := walk_ok_children ht
    have hc : (if b ≠ 0 then r else l).isNull = false ∧
        two_or_none (if b ≠ 0 then r else l) = true := by
      split <;> simp [hl, hr, hfl, hfr]
    cases hsel : (if b ≠ 0 then r else l) with
    | null => rw [hsel] at hc; simp [isNull] at hc
    | node d2 f2 l2 r2 =>
      rw [hsel] at hc
      simp only [decode_bit, hsel]
      by_cases hleaf : (l2.isNull && r2.isNull) = true
      · exact ⟨root, [d2], by simp [hleaf], hroot, by simp⟩
      · exact ⟨node d2 f2 l2 r2, [], by simp [hleaf], ⟨rfl, by simpa [isLeaf] using hleaf, hc.2⟩,
          by simp⟩

theorem decode_bits_ok (root : HuffmanNode) (hroot : walk_ok root) (bits : List Nat) :
    ∀ (t : HuffmanNode) (out : List Nat), walk_ok t →
      ∃ t2 extra, decode_bits root bits (t, out) = some (t2, out ++ extra) ∧ walk_ok t2 ∧
        extra.length ≤ bits.length := by
  induction bits with
  | nil => intro t out ht; exact ⟨t, [], by simp [decode_bits], ht, by simp⟩
  | cons b bs ih =>
    intro t out ht
    obtain ⟨t1, e1, h1, hw1, hl1⟩ := decode_bit_ok root t b out hroot ht
    obtain ⟨t2, e2, h2, hw2, hl2⟩ := ih t1 (out ++ e1) hw1
    refine ⟨t2, e1 ++ e2, ?_, hw2, ?_⟩
    · simp only [decode_bits, h1, Option.some_bind, h2, List.append_assoc]
    · simp only [List.length_append, List.length_cons]
      omega

/-! ## Encode followed by decode -/

theorem read_header_written (freq0 freq : Nat → Int) :
    ∀ i, i < ASCII_SIZE → read_header freq0 ((List.range ASCII_SIZE).map freq) i = freq i := by
  intro i hi
  simp [read_header, hi, List.getD_eq_getElem?_getD, List.getElem?_map, List.getElem?_range hi]

theorem code_bits_cons (codes : Nat → Option (List Nat)) (c : Nat) (cs : List Nat) :
    code_bits codes (c :: cs) =
      ((codes c).getD []).map (fun ch => ch - 48) ++ code_bits codes cs := rfl

theorem decode_code_bits (root : HuffmanNode) (codes : Nat → Option (List Nat))
    (hroot : walk_ok root) (input : List Nat) :
    ∀ (out rest : List Nat),
      (∀ c ∈ input, ∃ e ∈ leaf_paths root, e.1 = c ∧ codes c = some (path_chars e.2)) →
      decode_bits root (code_bits codes input ++ rest) (root, out) =
        decode_bits root rest (root, out ++ input) := by
  induction input with
  | nil => intro out rest _; simp [code_bits]
  | cons c cs ih =>
    intro out rest hin
    obtain ⟨e, he, hec, hc⟩ := hin c (by simp)
    rw [code_bits_cons, hc, Option.getD_some, path_chars_bits, List.append_assoc,
      decode_bits_path root root e out _ hroot he, hec,
      ih _ rest (fun x hx => hin x (by simp [hx]))]
    simp

theorem leaf_paths_leaf {t : HuffmanNode} (h : t.isLeaf = true) :
    leaf_paths t = [(t.data, [])] := by
  cases t with
  | null => simp [isLeaf] at h
  | node d f l r =>
    simp only [isLeaf] at h
    simp [leaf_paths, h, HuffmanNode.data]

/-- The table counted from an input in which no counter overflows. -/
theorem build_of_input (input : List Nat)
    (hcnt : ∀ c, c < ASCII_SIZE → input.count c < 2147483648) :
    let freq := calculate_frequency init_state.freq input
    (∀ i, i < ASCII_SIZE → 0 ≤ freq i ∧ freq i < 2147483648) ∧
    (∀ c ∈ input, c < ASCII_SIZE → freq c ≠ 0) ∧
    (∀ i, i < ASCII_SIZE → freq i = (input.count i : Int)) := by
  intro freq
  have hf : ∀ i, freq i = 0 + if i < ASCII_SIZE then (input.count i : Int) else 0 :=
    calculate_frequency_eq input (fun _ => 0) (fun _ => le_refl _)
      (fun i hi => by simp only [zero_add]; exact_mod_cast hcnt i hi)
  refine ⟨?_, ?_, ?_⟩
  · intro i hi
    rw [hf i]
    simp only [hi, if_true, zero_add]
    have := hcnt i hi
    omega
  · intro c hc hc2
    rw [hf c]
    simp only [hc2, if_true, zero_add]
    have := List.count_pos_iff.2 hc
    omega
  · intro i hi
    rw [hf i]
    simp [hi]

theorem walk_ok_of_two (freq : Nat → Int)
    (htwo : ∃ a, a < ASCII_SIZE ∧ freq a ≠ 0 ∧ ∃ b, b < ASCII_SIZE ∧ freq b ≠ 0 ∧ a ≠ b) :
    walk_ok (build_huffman_tree freq) := by
  obtain ⟨a, ha, hfa, b, hb, hfb, hab⟩ := htwo
  refine ⟨build_not_null_of_nonzero freq ⟨a, ha, hfa⟩, ?_, build_two_or_none freq⟩
  by_contra hleaf
  have hleaf' : (build_huffman_tree freq).isLeaf = true := by simpa using hleaf
  have hp := leaf_paths_leaf hleaf'
  have h1 := ((build_leaf_symbols freq).2 a).2 ⟨ha, hfa⟩
  have h2 := ((build_leaf_symbols freq).2 b).2 ⟨hb, hfb⟩
  rw [hp] at h1 h2
  simp only [List.map_cons, List.map_nil, List.mem_singleton] at h1 h2
  exact hab (h1.trans h2.symm)

theorem write_loop_empty_code (codes : Nat → Option (List Nat)) (s : Nat) (hs : s < ASCII_SIZE)
    (hc : codes s = some []) (n : Nat) (st : Nat × Nat × List Nat) :
    write_loop codes (List.replicate n s) st = some st := by
  induction n with
  | zero => rfl
  | succ n ih =>
    simp only [List.replicate_succ, write_loop, hs, if_true, hc]
    exact ih

theorem calculate_frequency_replicate (s n : Nat) (hn : n < 2147483648) :
    ∀ i, i < ASCII_SIZE →
      calculate_frequency init_state.freq (List.replicate n s) i = if i = s then (n : Int) else 0 := by
  intro i hi
  have h := calculate_frequency_eq (List.replicate n s) (fun _ => 0) (fun _ => le_refl _)
    (fun j _ => by
      simp only [zero_add]
      have := List.count_le_length (a := j) (l := List.replicate n s)
      rw [List.length_replicate] at this
      exact_mod_cast Nat.lt_of_le_of_lt this hn) i
  rw [show init_state.freq = fun _ => 0 from rfl, h]
  simp only [hi, if_true, zero_add, List.count_replicate]
  by_cases h2 : i = s
  · simp [h2]
  · have : ¬ s = i := fun h => h2 h.symm
    simp [h2, this]

/-! ## Claims on encode and decode -/

/-- C1 (counterexample): from the initialized state, `encode` of "aaabbc" followed by
`decode` of the file written gives "aaabbc" followed by seven times 'a', the symbols decoded
from the zero padding bits of the last byte. -/
theorem round_trip_fails_on_padding :
    ((encode init_state [97, 97, 97, 98, 98, 99]).bind fun r =>
      r.2.bind fun file => (decode init_state file).map fun d => d.output) =
      some [97, 97, 97, 98, 98, 99, 97, 97, 97, 97, 97, 97, 97] ∧
    ((encode init_state [97, 97, 97, 98, 98, 99]).bind fun r =>
      r.2.bind fun file => (decode init_state file).map fun d => d.output) ≠
      some [97, 97, 97, 98, 98, 99] := by
  decide

/-- C1 (amended): for every input of in-range symbols with at least two different symbols,
in which no symbol occurs `2 ^ 31` times or more (no `int` counter overflows), `encode` from
the initialized state writes a file, and `decode` of that file, from any state, succeeds and
writes the input followed by at most 7 further symbols; it writes exactly the input when the
number of packed code bits is a multiple of 8 (no padding bit). -/
theorem encode_decode_round_trip (input : List Nat) (st2 : State)
    (hsym : ∀ c ∈ input, c < ASCII_SIZE)
    (hcnt : ∀ c, c < ASCII_SIZE → input.count c < 2147483648)
    (htwo : ∃ a ∈ input, ∃ b ∈ input, a ≠ b) :
    ∃ st file r extra,
      encode init_state input = some (st, some file) ∧
      decode st2 file = some r ∧ r.failed = false ∧
      r.output = input ++ extra ∧ extra.length ≤ 7 ∧
      ((code_bits st.codes input).length % 8 = 0 → extra = []) := by
  obtain ⟨hrange, hnz, _⟩ := build_of_input input hcnt
  generalize hfreq : calculate_frequency init_state.freq input = freq at hrange hnz
  obtain ⟨a, ha, b, hb, hab⟩ := htwo
  have hroot : walk_ok (build_huffman_tree freq) :=
    walk_ok_of_two freq ⟨a, hsym a ha, hnz a ha (hsym a ha), b, hsym b hb, hnz b hb (hsym b hb), hab⟩
  obtain ⟨tc2, hgen⟩ := generate_codes_build freq init_state.temp_code init_state.codes hrange
    hroot.1
  generalize hcodes : put_paths init_state.codes [] (leaf_paths (build_huffman_tree freq)) = codes
    at hgen
  have hin : ∀ c ∈ input, ∃ e ∈ leaf_paths (build_huffman_tree freq),
      e.1 = c ∧ codes c = some (path_chars e.2) := by
    intro c hc
    have hm := ((build_leaf_symbols freq).2 c).2 ⟨hsym c hc, hnz c hc (hsym c hc)⟩
    rw [List.mem_map] at hm
    obtain ⟨e, he, rfl⟩ := hm
    exact ⟨e, he, rfl, by rw [← hcodes]; exact (put_paths_build freq _).1 e he⟩
  obtain ⟨payload, k, hpay, hk, hbits⟩ := write_payload_spec codes input
    (fun c hc => ⟨hsym c hc, by obtain ⟨e, _, _, h⟩ := hin c hc; exact ⟨e.2, h⟩⟩)
  have henc : encode init_state input =
      some ({ root := build_huffman_tree freq, codes := codes, freq := freq, temp_code := tc2 },
        some { header := (List.range ASCII_SIZE).map freq, payload := payload }) := by
    simp only [encode, hfreq, hroot.1, Bool.false_eq_true, if_false, hgen, write_compressed, hpay,
      Option.map_some']
  have htree : build_huffman_tree (read_header st2.freq ((List.range ASCII_SIZE).map freq)) =
      build_huffman_tree freq := build_congr _ _ (read_header_written st2.freq freq)
  obtain ⟨t2, extra, hwalk, _, hextra⟩ := decode_bits_ok (build_huffman_tree freq) hroot
    (List.replicate k 0) (build_huffman_tree freq) input hroot
  have hdec : decode_loop (build_huffman_tree freq) payload (build_huffman_tree freq, []) =
      some (t2, input ++ extra) := by
    rw [decode_loop_eq, hbits, decode_code_bits _ codes hroot input [] _ hin, List.nil_append, hwalk]
  have hdecode : decode st2 { header := (List.range ASCII_SIZE).map freq, payload := payload } =
      some { state := { st2 with
               freq := read_header st2.freq ((List.range ASCII_SIZE).map freq),
               root := build_huffman_tree freq },
             failed := false, created := true, output := input ++ extra } := by
    simp only [decode, htree, hroot.1, Bool.false_eq_true, if_false, hdec, Option.map_some']
  refine ⟨_, _, _, extra, henc, hdecode, rfl, rfl, ?_, ?_⟩
  · simp only [List.length_replicate] at hextra
    omega
  · intro h8
    have hl := congrArg List.length hbits
    rw [flatMap_byte_bits_length, List.length_append, List.length_replicate] at hl
    simp only at h8
    have hk0 : k = 0 := by omega
    rw [hk0] at hextra
    simpa using hextra

/-- C1 (witness): the input "ab". -/
theorem encode_decode_round_trip_witness :
    ∃ st file r extra,
      encode init_state [97, 98] = some (st, some file) ∧
      decode init_state file = some r ∧ r.failed = false ∧
      r.output = [97, 98] ++ extra ∧ extra.length ≤ 7 ∧
      ((code_bits st.codes [97, 98]).length % 8 = 0 → extra = []) :=
  encode_decode_round_trip [97, 98] init_state (by decide) (by decide)
    ⟨97, by decide, 98, by decide, by decide⟩

/-- C2 (the code at the failing input): for an in-range symbol `s` and `1 ≤ n < 2 ^ 31`,
`encode` of `n` copies of `s` from the initialized state runs without fault, binds `s` to the
empty code and writes an empty payload; `decode` of that file runs without fault and writes
no symbol at all, instead of the `n` copies of `s`. -/
theorem single_symbol_decodes_to_nothing (s n : Nat) (st2 : State) (hs : s < ASCII_SIZE)
    (hn1 : 1 ≤ n) (hn2 : n < 2147483648) :
    ∃ st file r,
      encode init_state (List.replicate n s) = some (st, some file) ∧
      st.codes s = some [] ∧ file.payload = [] ∧
      decode st2 file = some r ∧ r.failed = false ∧ r.output = [] := by
  have hcount := calculate_frequency_replicate s n hn2
  generalize hfreq : calculate_frequency init_state.freq (List.replicate n s) = freq at hcount
  have hfs : freq s = (n : Int) := by simpa using hcount s hs
  have hnz : freq s ≠ 0 := by rw [hfs]; exact_mod_cast (by omega : n ≠ 0)
  have hz : ∀ i, i < ASCII_SIZE → i ≠ s → freq i = 0 := by
    intro i hi his
    simpa [his] using hcount i hi
  have hb := build_single freq s hs hnz hz
  have hgen := generate_codes_leaf s (toUnsigned (freq s)) hs init_state.temp_code init_state.codes
  have hcode : Function.update init_state.codes s (some ([] : List Nat)) s = some [] :=
    Function.update_same _ _ _
  have hpay : write_payload (Function.update init_state.codes s (some [])) (List.replicate n s) =
      some [] := by
    simp [write_payload, write_loop_empty_code _ s hs hcode n]
  have henc : encode init_state (List.replicate n s) =
      some ({ root := create_node s (toUnsigned (freq s)),
              codes := Function.update init_state.codes s (some []),
              freq := freq, temp_code := Function.update init_state.temp_code 0 0 },
        some { header := (List.range ASCII_SIZE).map freq, payload := [] }) := by
    simp only [encode, hfreq, hb, hgen, write_compressed, hpay, Option.map_some']
    rfl
  have htree : build_huffman_tree (read_header st2.freq ((List.range ASCII_SIZE).map freq)) =
      create_node s (toUnsigned (freq s)) :=
    (build_congr _ _ (read_header_written st2.freq freq)).trans hb
  have hdecode : decode st2 { header := (List.range ASCII_SIZE).map freq, payload := [] } =
      some { state := { st2 with
               freq := read_header st2.freq ((List.range ASCII_SIZE).map freq),
               root := create_node s (toUnsigned (freq s)) },
             failed := false, created := true, output := [] } := by
    simp only [decode, htree]
    rfl
  exact ⟨_, _, _, henc, hcode, rfl, hdecode, rfl, rfl⟩

/-- C2 (witness): 1000 copies of the byte 'a'. -/
theorem single_symbol_decodes_to_nothing_witness :
    ∃ st file r,
      encode init_state (List.replicate 1000 97) = some (st, some file) ∧
      st.codes 97 = some [] ∧ file.payload = [] ∧
      decode init_state file = some r ∧ r.failed = false ∧ r.output = [] :=
  single_symbol_decodes_to_nothing 97 1000 init_state (by decide) (by decide) (by decide)

/-- C9 (the code at the failing input): for a table with exactly one non-zero count, at the
symbol `s`, the tree of `build_huffman_tree` is the lone leaf of `s`, and `generate_codes` binds
`s` to the empty string: a code of length 0, not of length at least 1. -/
theorem lone_symbol_code_empty (freq : Nat → Int) (s : Nat) (tc : Nat → Nat)
    (codes : Nat → Option (List Nat)) (hs : s < ASCII_SIZE) (hnz : freq s ≠ 0)
    (hz : ∀ i, i < ASCII_SIZE → i ≠ s → freq i = 0) :
    build_huffman_tree freq = create_node s (toUnsigned (freq s)) ∧
    ∃ tc2 codes2, generate_codes (build_huffman_tree freq) 0 (tc, codes) = some (tc2, codes2) ∧
      codes2 s = some [] := by
  have hb := build_single freq s hs hnz hz
  refine ⟨hb, Function.update tc 0 0, Function.update codes s (some []), ?_, ?_⟩
  · rw [hb]
    exact generate_codes_leaf s _ hs tc codes
  · exact Function.update_same _ _ _

/-- C9 (witness): the table with the single count 1000 at the symbol 97. -/
theorem lone_symbol_code_empty_witness :
    ∃ tc2 codes2,
      generate_codes (build_huffman_tree (fun i => if i = 97 then 1000 else 0)) 0
        (init_state.temp_code, init_state.codes) = some (tc2, codes2) ∧
      codes2 97 = some [] :=
  (lone_symbol_code_empty (fun i => if i = 97 then 1000 else 0) 97 init_state.temp_code
    init_state.codes (by decide) (by decide) (by decide)).2

/-- C3 (witness): the table of "aaabbc". -/
theorem codes_prefix_free_witness :
    (∃ i, i < ASCII_SIZE ∧ table_aaabbc i ≠ 0) ∧
    (∀ i, i < ASCII_SIZE → 0 ≤ table_aaabbc i ∧ table_aaabbc i < 2147483648) ∧
    ∃ r, generate_codes (build_huffman_tree table_aaabbc) 0 (init_state.temp_code, fun _ => none) =
      some r :=
  ⟨⟨97, by decide, by decide⟩, by decide,
    (codes_prefix_free table_aaabbc init_state.temp_code ⟨97, by decide, by decide⟩).2 (by decide)⟩

/-- C10 (witness): the table of "aaabbc". -/
theorem generate_codes_binds_paths_witness :
    (∃ i, i < ASCII_SIZE ∧ table_aaabbc i ≠ 0) ∧
    (∀ i, i < ASCII_SIZE → 0 ≤ table_aaabbc i ∧ table_aaabbc i < 2147483648) ∧
    ∃ r, generate_codes (build_huffman_tree table_aaabbc) 0 (init_state.temp_code, fun _ => none) =
      some r :=
  ⟨⟨97, by decide, by decide⟩, by decide,
    (generate_codes_binds_paths table_aaabbc init_state.temp_code
      ⟨97, by decide, by decide⟩).2.2 (by decide)⟩

/-! ## The payload of `write_compressed` -/

theorem put_bit_bytes (s : Nat × Nat × List Nat) (ch : Nat) (h : ∀ b ∈ s.2.2, b < 256) :
    ∀ b ∈ (put_bit s ch).2.2, b < 256 := by
  obtain ⟨buf, bc, out⟩ := s
  simp only [put_bit]
  split
  · intro b hb
    simp only [List.mem_append, List.mem_singleton] at hb
    rcases hb with hb | rfl
    · exact h b hb
    · exact Nat.mod_lt _ (by decide)
  · exact h

theorem put_code_bytes (code : List Nat) :
    ∀ s : Nat × Nat × List Nat, (∀ b ∈ s.2.2, b < 256) →
      ∀ b ∈ (put_code code s).2.2, b < 256 := by
  induction code with
  | nil => intro s h; exact h
  | cons ch code ih =>
    intro s h
    exact ih (put_bit s ch) (put_bit_bytes s ch h)

theorem write_loop_bytes (codes : Nat → Option (List Nat)) (input : List Nat) :
    ∀ s s2 : Nat × Nat × List Nat, (∀ b ∈ s.2.2, b < 256) →
      write_loop codes input s = some s2 → ∀ b ∈ s2.2.2, b < 256 := by
  induction input with
  | nil =>
    intro s s2 h hw
    simp only [write_loop, Option.some.injEq] at hw
    rw [← hw]; exact h
  | cons c cs ih =>
    intro s s2 h hw
    simp only [write_loop] at hw
    split at hw
    · split at hw
      · rename_i code _
        exact ih _ s2 (put_code_bytes code s h) hw
      · exact Option.noConfusion hw
    · exact Option.noConfusion hw

theorem write_payload_bytes (codes : Nat → Option (List Nat)) (input payload : List Nat)
    (h : write_payload codes input = some payload) : ∀ b ∈ payload, b < 256 := by
  unfold write_payload at h
  split at h
  · exact Option.noConfusion h
  · rename_i buf bc out hw
    have hb := write_loop_bytes codes input (0, 0, []) (buf, bc, out) (by simp) hw
    split at h
    · rw [← Option.some.inj h]
      intro b hb2
      simp only [List.mem_append, List.mem_singleton] at hb2
      rcases hb2 with hb2 | rfl
      · exact hb b hb2
      · exact Nat.mod_lt _ (by decide)
    · rw [← Option.some.inj h]
      exact hb

/-- The code table of a counted input: every symbol of the input has an entry, made of
the characters of a root-to-leaf path. -/
theorem codes_of_input (input : List Nat) (hsym : ∀ c ∈ input, c < ASCII_SIZE)
    (hcnt : ∀ c, c < ASCII_SIZE → input.count c < 2147483648) (hne : input ≠ []) :
    (build_huffman_tree (calculate_frequency init_state.freq input)).isNull = false ∧
    ∃ tc2 codes2,
      generate_codes (build_huffman_tree (calculate_frequency init_state.freq input)) 0
        (init_state.temp_code, init_state.codes) = some (tc2, codes2) ∧
      ∀ c ∈ input, ∃ e ∈ leaf_paths (build_huffman_tree
          (calculate_frequency init_state.freq input)),
        e.1 = c ∧ codes2 c = some (path_chars e.2) := by
  obtain ⟨hrange, hnz, _⟩ := build_of_input input hcnt
  generalize calculate_frequency init_state.freq input = freq at hrange hnz
  obtain ⟨a, ha⟩ := List.exists_mem_of_ne_nil input hne
  have hn := build_not_null_of_nonzero freq ⟨a, hsym a ha, hnz a ha (hsym a ha)⟩
  obtain ⟨tc2, hgen⟩ := generate_codes_build freq init_state.temp_code init_state.codes hrange hn
  refine ⟨hn, tc2, _, hgen, ?_⟩
  intro c hc
  have hm := ((build_leaf_symbols freq).2 c).2 ⟨hsym c hc, hnz c hc (hsym c hc)⟩
  rw [List.mem_map] at hm
  obtain ⟨e, he, rfl⟩ := hm
  exact ⟨e, he, rfl, (put_paths_build freq _).1 e he⟩

theorem calculate_frequency_filter (input : List Nat) :
    ∀ freq : Nat → Int, calculate_frequency freq input =
      calculate_frequency freq (input.filter (fun c => decide (c < ASCII_SIZE))) := by
  induction input with
  | nil => intro freq; rfl
  | cons c cs ih =>
    intro freq
    by_cases hc : c < ASCII_SIZE
    · rw [List.filter_cons_of_pos (by simpa using hc), calculate_frequency_cons,
        calculate_frequency_cons, ih]
    · rw [List.filter_cons_of_neg (by simpa using hc), calculate_frequency_cons]
      simp only [hc, if_false]
      exact ih freq

theorem indicator_sum_range (c m : Nat) :
    ((List.range m).map (fun s => if c = s then 1 else 0)).sum = if c < m then 1 else 0 := by
  induction m with
  | zero => simp
  | succ m ihm =>
    rw [List.range_succ, List.map_append, List.sum_append, ihm]
    by_cases h1 : c < m
    · have : c ≠ m := by omega
      simp [h1, this, Nat.lt_succ_of_lt h1]
    · by_cases h2 : c = m
      · subst h2; simp
      · have : ¬ c < m + 1 := by omega
        simp [h1, h2, this]

theorem count_sum_range (input : List Nat) (m : Nat) :
    ((List.range m).map (fun s => input.count s)).sum =
      (input.filter (fun c => decide (c < m))).length := by
  induction input with
  | nil => simp
  | cons c cs ih =>
    have hsplit : ((List.range m).map (fun s => (c :: cs).count s)).sum =
        ((List.range m).map (fun s => cs.count s)).sum +
          ((List.range m).map (fun s => if c = s then 1 else 0)).sum := by
      rw [← List.sum_map_add]
      congr 1
      apply List.map_congr_left
      intro s _
      simp [List.count_cons]
    rw [hsplit, ih, indicator_sum_range]
    by_cases hc : c < m
    · simp [hc]
    · simp [hc]

theorem calculate_frequency_congr (input : List Nat) :
    ∀ f g : Nat → Int, (∀ i, i < ASCII_SIZE → f i = g i) →
      ∀ i, i < ASCII_SIZE → calculate_frequency f input i = calculate_frequency g input i := by
  induction input with
  | nil => intro f g h i hi; exact h i hi
  | cons c cs ih =>
    intro f g h i hi
    rw [calculate_frequency_cons, calculate_frequency_cons]
    apply ih _ _ _ i hi
    intro j hj
    by_cases hc : c < ASCII_SIZE
    · simp only [hc, if_true]
      by_cases hjc : j = c
      · subst hjc; rw [Function.update_same, Function.update_same, h j hj]
      · rw [Function.update_noteq hjc, Function.update_noteq hjc, h j hj]
    · simp only [hc, if_false]
      exact h j hj

theorem put_paths_congr (pre : List Bool) (ps : List (Nat × List Bool)) :
    ∀ c1 c2 : Nat → Option (List Nat), ∀ i, c1 i = c2 i →
      put_paths c1 pre ps i = put_paths c2 pre ps i := by
  induction ps with
  | nil => intro c1 c2 i h; exact h
  | cons e ps ih =>
    intro c1 c2 i h
    show put_paths (Function.update c1 e.1 _) pre ps i = put_paths (Function.update c2 e.1 _) pre ps i
    apply ih
    by_cases hi : i = e.1
    · subst hi; rw [Function.update_same, Function.update_same]
    · rw [Function.update_noteq hi, Function.update_noteq hi, h]

theorem write_loop_congr (c1 c2 : Nat → Option (List Nat))
    (h : ∀ i, i < ASCII_SIZE → c1 i = c2 i) (input : List Nat) :
    ∀ s, write_loop c1 input s = write_loop c2 input s := by
  induction input with
  | nil => intro s; rfl
  | cons c cs ih =>
    intro s
    simp only [write_loop]
    by_cases hc : c < ASCII_SIZE
    · simp only [hc, if_true, h c hc]
      cases c2 c with
      | none => rfl
      | some code => exact ih _
    · simp only [hc, if_false]

theorem write_payload_congr (c1 c2 : Nat → Option (List Nat))
    (h : ∀ i, i < ASCII_SIZE → c1 i = c2 i) (input : List Nat) :
    write_payload c1 input = write_payload c2 input := by
  simp only [write_payload, write_loop_congr c1 c2 h input]

/-- A run of `generate_codes` on the built tree either stays inside `temp_code` and lays
the root-to-leaf paths over the starting table, or overruns `temp_code`. -/
theorem generate_codes_build_cases (freq : Nat → Int) (tc : Nat → Nat)
    (codes : Nat → Option (List Nat)) (hn : (build_huffman_tree freq).isNull = false) :
    (height (build_huffman_tree freq) < MAX_TREE_HT ∧
      ∃ tc2, generate_codes (build_huffman_tree freq) 0 (tc, codes) =
        some (tc2, put_paths codes [] (leaf_paths (build_huffman_tree freq)))) ∨
    (MAX_TREE_HT ≤ height (build_huffman_tree freq) ∧
      generate_codes (build_huffman_tree freq) 0 (tc, codes) = none) := by
  by_cases hh : height (build_huffman_tree freq) < MAX_TREE_HT
  · obtain ⟨tc2, h2, _⟩ := generate_codes_some (build_huffman_tree freq) 0 tc codes [] hn
      (build_two_or_none freq)
      (fun e he => ((build_leaf_symbols freq).2 e.1).1 (List.mem_map_of_mem _ he) |>.1)
      (by simpa using hh) rfl (fun i hi => absurd hi (Nat.not_lt_zero i))
    exact Or.inl ⟨hh, tc2, h2⟩
  · exact Or.inr ⟨by omega,
      generate_codes_none _ 0 _ hn (build_two_or_none freq) (by simpa using hh)⟩

theorem walk_ok_of_input (input : List Nat) (hsym : ∀ c ∈ input, c < ASCII_SIZE)
    (hcnt : ∀ c, c < ASCII_SIZE → input.count c < 2147483648)
    (htwo : ∃ a ∈ input, ∃ b ∈ input, a ≠ b) :
    walk_ok (build_huffman_tree (calculate_frequency init_state.freq input)) := by
  obtain ⟨_, hnz, _⟩ := build_of_input input hcnt
  obtain ⟨a, ha, b, hb, hab⟩ := htwo
  exact walk_ok_of_two _
    ⟨a, hsym a ha, hnz a ha (hsym a ha), b, hsym b hb, hnz b hb (hsym b hb), hab⟩

theorem decode_bits_take_ok (root : HuffmanNode) (hroot : walk_ok root) (bits : List Nat)
    (k : Nat) :
    ∃ t out, decode_bits root (bits.take k) (root, []) = some (t, out) ∧ walk_ok t := by
  obtain ⟨t, extra, h, hw, _⟩ := decode_bits_ok root hroot (bits.take k) root [] hroot
  exact ⟨t, [] ++ extra, h, hw⟩

theorem walk_ok_both_children {t : HuffmanNode} (h : walk_ok t) :
    ∃ d f l r, t = node d f l r ∧ l.isNull = false ∧ r.isNull = false := by
  cases t with
  | null => simp [walk_ok, isNull] at h
  | node d f l r =>
    obtain ⟨hl, hr, _, _⟩ := walk_ok_children h
    exact ⟨d, f, l, r, rfl, hl, hr⟩

theorem leaf_paths_length_le (t : HuffmanNode) :
    ∀ e ∈ leaf_paths t, e.2.length ≤ height t := by
  induction t with
  | null => intro e he; simp [leaf_paths] at he
  | node d f l r ihl ihr =>
    intro e he
    simp only [leaf_paths, height] at he ⊢
    by_cases hleaf : (l.isNull && r.isNull) = true
    · rw [if_pos hleaf] at he ⊢
      rw [List.mem_singleton] at he
      rw [he]
      exact Nat.le_refl _
    · rw [if_neg hleaf] at he ⊢
      simp only [List.mem_append, List.mem_map] at he
      rcases he with ⟨a, ha, rfl⟩ | ⟨a, ha, rfl⟩
      · have := ihl a ha
        have := Nat.le_max_left (height l) (height r)
        simp only [List.length_cons]
        omega
      · have := ihr a ha
        have := Nat.le_max_right (height l) (height r)
        simp only [List.length_cons]
        omega

theorem frequency_combine (a b : HuffmanNode) :
    (combine a b).frequency = (a.frequency + b.frequency) % 4294967296 := rfl

theorem leaf_queue_frequency_sum (freq : Nat → Int) (m : Nat) :
    ((leaf_queue freq m).map HuffmanNode.frequency).sum =
      ((table_leaves freq m).map Prod.snd).sum := by
  induction m with
  | zero => simp [leaf_queue, table_leaves]
  | succ m ih =>
    rw [leaf_queue_succ, table_leaves_succ]
    by_cases h : freq m = 0
    · simp [h, ih]
    · simp only [ne_eq, h, not_false_eq_true, if_true]
      rw [((insert_queue_perm _ _).map HuffmanNode.frequency).sum_eq]
      simp [ih, create_node, HuffmanNode.frequency]
      omega

/-- While no sum of two frequencies wraps around, the queue stays in the exact phase. -/
theorem exact_invariant (k : Nat) (q : List HuffmanNode)
    (hok : ∀ x ∈ q, entry_ok x) (h : exact_phase q)
    (hsum : (q.map HuffmanNode.frequency).sum < 4294967296) :
    exact_phase (combine_loop k q) := by
  induction k generalizing q with
  | zero => exact h
  | succ k ih =>
    match q, hok, h, hsum with
    | [], _, h, _ => exact h
    | [_], _, h, _ => exact h
    | a :: b :: rest, hok, h, hsum =>
      simp only [combine_loop]
      simp only [List.map_cons, List.sum_cons] at hsum
      have hab : a.frequency + b.frequency < 4294967296 := by omega
      apply ih
      · intro x hx
        rw [mem_insert_queue] at hx
        rcases hx with rfl | hx
        · exact entry_ok_combine a b (hok a (by simp)) (hok b (by simp))
        · exact hok x (by simp [hx])
      · exact exact_phase_step a b rest hok h hab
      · rw [((insert_queue_perm rest (combine a b)).map HuffmanNode.frequency).sum_eq]
        simp only [List.map_cons, List.sum_cons, frequency_combine, Nat.mod_eq_of_lt hab]
        omega

theorem build_height_le_of_sum (freq : Nat → Int)
    (hrange : ∀ i, i < ASCII_SIZE → 0 ≤ freq i ∧ freq i < 2147483648)
    (hsum : ((List.range ASCII_SIZE).map freq).sum < 4294967296) :
    height (build_huffman_tree freq) ≤ 45 := by
  rcases build_cases freq with ⟨h, _⟩ | ⟨hn, hfin⟩
  · rw [h]; decide
  · have hunsigned : ∀ i, i < ASCII_SIZE → freq i ≠ 0 →
        1 ≤ toUnsigned (freq i) ∧ toUnsigned (freq i) < 2147483648 := by
      intro i hi hne
      have := toUnsigned_of_range (hrange i hi).1 (hrange i hi).2
      have := hrange i hi
      omega
    have hok0 : ∀ x ∈ initial_queue freq, entry_ok x := by
      intro x hx
      obtain ⟨i, _, _, rfl⟩ := mem_leaf_queue hx
      exact ⟨rfl, rfl, toUnsigned_lt _⟩
    have hs0 : ((initial_queue freq).map HuffmanNode.frequency).sum < 4294967296 := by
      unfold initial_queue
      rw [leaf_queue_frequency_sum]
      have h1 := table_leaves_sum freq ASCII_SIZE hrange
      have h2 : (((table_leaves freq ASCII_SIZE).map Prod.snd).sum : Int) =
          ((table_leaves freq ASCII_SIZE).map (fun e => (e.2 : Int))).sum := by
        rw [Nat.cast_list_sum, List.map_map]
        rfl
      omega
    have hinv := exact_invariant (initial_queue freq).length (initial_queue freq) hok0
      ⟨leaf_queue_sorted freq _, by
        intro x hx
        obtain ⟨i, hi, hne, rfl⟩ := mem_leaf_queue hx
        have := hunsigned i hi hne
        refine ⟨⟨?_, trivial, trivial⟩, fun _ => this.2⟩
        show Nat.fib 2 ≤ toUnsigned (freq i)
        rw [Nat.fib_two]
        exact this.1, by
        intro x _ y hy
        obtain ⟨i, _, _, rfl⟩ := mem_leaf_queue hy
        exact ⟨Nat.zero_le _, Nat.zero_le _⟩⟩ hs0
    have hokf : entry_ok (build_huffman_tree freq) :=
      combine_loop_induction entry_ok entry_ok_combine _ _ hok0 _
        (by show build_huffman_tree freq ∈ final_queue freq; rw [hfin]; simp)
    change exact_phase (final_queue freq) at hinv
    rw [hfin] at hinv
    exact height_le_of_fib_ok hokf (hinv.2.1 _ (by simp)).1

/-! ## Claims on packing, counting and the runs of encode and decode -/

/-- C11: for every code table and every input whose symbols are all in range and all have a
code made of the characters '0' and '1', with `B` the bits of those codes in input order,
the payload written by `write_compressed` has exactly `ceil(|B| / 8)` bytes, each below 256,
and the bits of those bytes, most significant first, are `B` followed by
`8 * ceil(|B| / 8) - |B|` zero bits; when `|B|` is a multiple of 8 they are exactly `B`, so no
padding byte is written. -/
theorem write_payload_msb_first (codes : Nat → Option (List Nat)) (input : List Nat)
    (hin : ∀ c ∈ input, c < ASCII_SIZE ∧ ∃ p, codes c = some (path_chars p)) :
    ∃ payload, write_payload codes input = some payload ∧
      payload.length = ((code_bits codes input).length + 7) / 8 ∧
      (∀ b ∈ payload, b < 256) ∧
      payload.flatMap byte_bits = code_bits codes input ++
        List.replicate (8 * payload.length - (code_bits codes input).length) 0 ∧
      ((code_bits codes input).length % 8 = 0 →
        payload.flatMap byte_bits = code_bits codes input) := by
  obtain ⟨payload, k, hpay, hk, hbits⟩ := write_payload_spec codes input hin
  have hl := congrArg List.length hbits
  rw [flatMap_byte_bits_length, List.length_append, List.length_replicate] at hl
  have hk2 : 8 * payload.length - (code_bits codes input).length = k := by omega
  refine ⟨payload, hpay, by omega, write_payload_bytes codes input payload hpay, ?_, ?_⟩
  · rw [hk2]; exact hbits
  · intro h8
    have hk0 : k = 0 := by omega
    rw [hbits, hk0]
    simp

/-- C11 (witness): the input "aaabbc" with the codes "0", "11" and "10". -/
theorem write_payload_msb_first_witness :
    ∃ payload, write_payload codes_aaabbc [97, 97, 97, 98, 98, 99] = some payload ∧
      payload.length = ((code_bits codes_aaabbc [97, 97, 97, 98, 98, 99]).length + 7) / 8 ∧
      (∀ b ∈ payload, b < 256) ∧
      payload.flatMap byte_bits = code_bits codes_aaabbc [97, 97, 97, 98, 98, 99] ++
        List.replicate
          (8 * payload.length - (code_bits codes_aaabbc [97, 97, 97, 98, 98, 99]).length) 0 ∧
      ((code_bits codes_aaabbc [97, 97, 97, 98, 98, 99]).length % 8 = 0 →
        payload.flatMap byte_bits = code_bits codes_aaabbc [97, 97, 97, 98, 98, 99]) :=
  write_payload_msb_first codes_aaabbc [97, 97, 97, 98, 98, 99] (by
    intro c hc
    have h3 : c = 97 ∨ c = 98 ∨ c = 99 := by
      simp only [List.mem_cons, List.mem_singleton, List.not_mem_nil, or_false] at hc
      omega
    rcases h3 with rfl | rfl | rfl
    · exact ⟨by decide, [false], rfl⟩
    · exact ⟨by decide, [true, true], rfl⟩
    · exact ⟨by decide, [true, false], rfl⟩)

/-- C12 (amended): for every input of in-range bytes in which no symbol occurs `2 ^ 31` times
or more (no `int` counter overflows), `encode` from the initialized state returns, the code
table it leaves has an entry for every symbol that occurs in the input, and the loop of
`write_compressed` finds a code at every lookup; when the input is not empty, `encode` writes
a file and that code table is the one `generate_codes` builds from the counted table. -/
theorem no_unknown_symbol (input : List Nat) (hsym : ∀ c ∈ input, c < ASCII_SIZE)
    (hcnt : ∀ c, c < ASCII_SIZE → input.count c < 2147483648) :
    ∃ st out, encode init_state input = some (st, out) ∧
      (∀ c ∈ input, ∃ code, st.codes c = some code) ∧
      (∃ s, write_loop st.codes input (0, 0, []) = some s) ∧
      (input ≠ [] → (∃ file, out = some file) ∧
        generate_codes (build_huffman_tree (calculate_frequency init_state.freq input)) 0
          (init_state.temp_code, init_state.codes) = some (st.temp_code, st.codes)) := by
  by_cases hne : input = []
  · subst hne
    have hb : build_huffman_tree init_state.freq = null := build_of_zero _ (fun _ _ => rfl)
    refine ⟨{ init_state with root := null }, none, ?_, ?_, ⟨(0, 0, []), rfl⟩, ?_⟩
    · simp only [encode, calculate_frequency, List.foldl_nil, hb, isNull, if_true]
    · intro c hc; simp at hc
    · intro h; exact absurd rfl h
  · obtain ⟨hn, tc2, codes2, hgen, hin⟩ := codes_of_input input hsym hcnt hne
    have hin2 : ∀ c ∈ input, c < ASCII_SIZE ∧ ∃ p, codes2 c = some (path_chars p) := fun c hc =>
      ⟨hsym c hc, by obtain ⟨e, _, _, h⟩ := hin c hc; exact ⟨e.2, h⟩⟩
    obtain ⟨payload, k, hpay, _, _⟩ := write_payload_spec codes2 input hin2
    obtain ⟨s, hs, _, _⟩ := write_loop_spec codes2 input (0, 0, []) hin2 state_ok_init
    refine ⟨{ root := build_huffman_tree (calculate_frequency init_state.freq input),
              codes := codes2, freq := calculate_frequency init_state.freq input,
              temp_code := tc2 },
      some { header := (List.range ASCII_SIZE).map (calculate_frequency init_state.freq input),
             payload := payload }, ?_, ?_, ⟨s, hs⟩, fun _ => ⟨⟨_, rfl⟩, hgen⟩⟩
    · simp only [encode, hn, Bool.false_eq_true, if_false, hgen, write_compressed, hpay,
        Option.map_some']
    · intro c hc
      obtain ⟨e, _, _, h⟩ := hin c hc
      exact ⟨_, h⟩

/-- C12 (witness): the input "aaabbc". -/
theorem no_unknown_symbol_witness :
    ∃ st out, encode init_state [97, 97, 97, 98, 98, 99] = some (st, out) ∧
      (∀ c ∈ [97, 97, 97, 98, 98, 99], ∃ code, st.codes c = some code) ∧
      (∃ s, write_loop st.codes [97, 97, 97, 98, 98, 99] (0, 0, []) = some s) ∧
      ([97, 97, 97, 98, 98, 99] ≠ [] → (∃ file, out = some file) ∧
        generate_codes
          (build_huffman_tree (calculate_frequency init_state.freq [97, 97, 97, 98, 98, 99])) 0
          (init_state.temp_code, init_state.codes) = some (st.temp_code, st.codes)) :=
  no_unknown_symbol [97, 97, 97, 98, 98, 99] (by decide) (by decide)

/-- C13: `encode` of the zero-length input from the initialized state stops at the
empty-input error: it returns with no output file, since the file is not opened before the
error, so neither the frequency header nor a payload byte is written, and the state is
unchanged; the same happens from every state whose frequency table is all zero. -/
theorem encode_empty_input :
    encode init_state [] = some ({ init_state with root := null }, none) ∧
    (∀ st : State, (∀ i, i < ASCII_SIZE → st.freq i = 0) →
      ∃ st2, encode st [] = some (st2, none) ∧ st2.root = null ∧ st2.codes = st.codes) := by
  refine ⟨?_, ?_⟩
  · have hb : build_huffman_tree init_state.freq = null := build_of_zero _ (fun _ _ => rfl)
    simp only [encode, calculate_frequency, List.foldl_nil, hb, isNull, if_true]
  · intro st hz
    have hb : build_huffman_tree st.freq = null := build_of_zero _ hz
    refine ⟨{ st with freq := st.freq, root := null }, ?_, rfl, rfl⟩
    simp only [encode, calculate_frequency, List.foldl_nil, hb, isNull, if_true]

/-- C13 (witness): the initialized state has an all-zero frequency table. -/
theorem encode_empty_input_witness :
    (∀ i, i < ASCII_SIZE → init_state.freq i = 0) ∧
    ∃ st2, encode init_state [] = some (st2, none) ∧ st2.root = null ∧
      st2.codes = init_state.codes :=
  ⟨fun _ _ => rfl, encode_empty_input.2 init_state (fun _ _ => rfl)⟩

/-- C14 (the code at the failing input): for a file whose frequency header is all zero, with
any payload and from any state, `decode` stops at "Error: Invalid compressed file" and writes
no symbol, but the output file has already been opened with mode "w": it has been created,
or truncated to empty. -/
theorem decode_zero_header_creates_output (st : State) (payload : List Nat) :
    decode st { header := List.replicate ASCII_SIZE 0, payload := payload } =
      some { state := { st with
               freq := read_header st.freq (List.replicate ASCII_SIZE 0), root := null },
             failed := true, created := true, output := [] } := by
  have hz : ∀ i, i < ASCII_SIZE → read_header st.freq (List.replicate ASCII_SIZE 0) i = 0 := by
    intro i hi
    simp [read_header, hi, List.getD_eq_getElem?_getD, List.getElem?_replicate]
  have hb := build_of_zero _ hz
  simp only [decode, hb, isNull, if_true]

/-- C15 (amended): from the initialized table, for every input in which no symbol occurs
`2 ^ 31` times or more (no `int` counter overflows), `calculate_frequency` leaves in the
counter of every
symbol below `ASCII_SIZE` the number of occurrences of that symbol; bytes of value
`ASCII_SIZE` or more change nothing (the result is that of the input without them, and no
entry outside the table is touched), and the counters add up to the number of in-range
bytes of the input. -/
theorem calculate_frequency_counts (input : List Nat)
    (hcnt : ∀ c, c < ASCII_SIZE → input.count c < 2147483648) :
    (∀ s, s < ASCII_SIZE → calculate_frequency init_state.freq input s = (input.count s : Int)) ∧
    (∀ s, ASCII_SIZE ≤ s → calculate_frequency init_state.freq input s = 0) ∧
    calculate_frequency init_state.freq input =
      calculate_frequency init_state.freq (input.filter (fun c => decide (c < ASCII_SIZE))) ∧
    ((List.range ASCII_SIZE).map (calculate_frequency init_state.freq input)).sum =
      ((input.filter (fun c => decide (c < ASCII_SIZE))).length : Int) := by
  have hf : ∀ i, calculate_frequency init_state.freq input i =
      0 + if i < ASCII_SIZE then (input.count i : Int) else 0 :=
    calculate_frequency_eq input (fun _ => 0) (fun _ => le_refl _)
      (fun i hi => by simp only [zero_add]; exact_mod_cast hcnt i hi)
  have h1 : ∀ s, s < ASCII_SIZE →
      calculate_frequency init_state.freq input s = (input.count s : Int) := by
    intro s hs
    rw [hf s]
    simp [hs]
  refine ⟨h1, ?_, calculate_frequency_filter input _, ?_⟩
  · intro s hs
    rw [hf s]
    have : ¬ s < ASCII_SIZE := by omega
    simp [this]
  · rw [← count_sum_range input ASCII_SIZE, Nat.cast_list_sum, List.map_map,
      List.map_congr_left (fun s hs => h1 s (List.mem_range.1 hs))]
    rfl

/-- C15 (witness): the input "aaabbc" followed by the out-of-range byte 200. -/
theorem calculate_frequency_counts_witness :
    (∀ c, c < ASCII_SIZE → [97, 97, 97, 98, 98, 99, 200].count c < 2147483648) ∧
    ((List.range ASCII_SIZE).map
      (calculate_frequency init_state.freq [97, 97, 97, 98, 98, 99, 200])).sum =
      (([97, 97, 97, 98, 98, 99, 200].filter (fun c => decide (c < ASCII_SIZE))).length : Int) :=
  ⟨by decide, (calculate_frequency_counts [97, 97, 97, 98, 98, 99, 200] (by decide)).2.2.2⟩

/-- C16: for the input "aaabbc" from the initialized state, the counts are a=3, b=2, c=1 and 0
elsewhere; `encode` builds the codes "0" for 'a', "11" for 'b', "10" for 'c' and no other, and
writes the payload bytes 31 and 0; the code of 'a' is no longer and the code of 'c' no shorter
than the code of any symbol; `decode` of the file gives "aaabbc" followed by seven 'a'. The
payload bits are the 9 code bits followed by 7 zero bits, the walk over the code bits gives
exactly "aaabbc" and returns to the root, and the walk over the 7 padding bits gives the seven
extra 'a'. -/
theorem literal_scenario_aaabbc :
    (List.range ASCII_SIZE).map (calculate_frequency init_state.freq [97, 97, 97, 98, 98, 99]) =
      (List.range ASCII_SIZE).map table_aaabbc ∧
    ((encode init_state [97, 97, 97, 98, 98, 99]).map fun r =>
      ((List.range ASCII_SIZE).map r.1.codes, r.2.map fun file => file.payload)) =
      some ((List.range ASCII_SIZE).map codes_aaabbc, some [31, 0]) ∧
    (∀ s, s < ASCII_SIZE → (codes_aaabbc s).all (fun code =>
      decide (((codes_aaabbc 97).getD []).length ≤ code.length ∧
        code.length ≤ ((codes_aaabbc 99).getD []).length)) = true) ∧
    ((encode init_state [97, 97, 97, 98, 98, 99]).bind fun r =>
      r.2.bind fun file => (decode init_state file).map fun d => d.output) =
      some ([97, 97, 97, 98, 98, 99] ++ List.replicate 7 97) ∧
    [31, 0].flatMap byte_bits =
      code_bits codes_aaabbc [97, 97, 97, 98, 98, 99] ++ List.replicate 7 0 ∧
    ((decode_bits (build_huffman_tree table_aaabbc)
        (code_bits codes_aaabbc [97, 97, 97, 98, 98, 99])
        (build_huffman_tree table_aaabbc, [])).map fun s =>
        (s.1 == build_huffman_tree table_aaabbc, s.2)) =
      some (true, [97, 97, 97, 98, 98, 99]) ∧
    ((decode_bits (build_huffman_tree table_aaabbc) (List.replicate 7 0)
        (build_huffman_tree table_aaabbc, [97, 97, 97, 98, 98, 99])).map fun s => s.2) =
      some ([97, 97, 97, 98, 98, 99] ++ List.replicate 7 97) := by
  decide

/-- C17 (counterexample): `encode` of "cc" from the initialized state counts 2 for 'c', binds
'c' to the empty code and writes an empty payload; from the state left by an `encode` of
"aaabbc" it counts 3 for 'c' (the earlier count is added), binds 'c' to "11" and writes the
payload byte 240. -/
theorem encode_keeps_earlier_counts :
    ((encode init_state [99, 99]).map fun r =>
      (r.1.freq 99, r.1.codes 99, r.2.map fun file => file.payload)) =
      some (2, some [], some []) ∧
    ((encode init_state [97, 97, 97, 98, 98, 99]).bind fun r0 =>
      (encode r0.1 [99, 99]).map fun r =>
        (r.1.freq 99, r.1.codes 99, r.2.map fun file => file.payload)) =
      some (3, some [49, 49], some [240]) := by
  decide

/-- C17 (amended): for every input and every two prior states whose frequency tables and
code tables are equal (two initialized states for instance), whatever `root` and whatever
contents of `temp_code` an earlier call left in them, `encode` either overruns a buffer in both
runs or returns in both with the same output, the same frequency table, the same code table
and the same root. -/
theorem encode_depends_on_tables (input : List Nat) (st1 st2 : State)
    (hfreq : ∀ i, i < ASCII_SIZE → st1.freq i = st2.freq i)
    (hcodes : ∀ i, i < ASCII_SIZE → st1.codes i = st2.codes i) :
    (encode st1 input = none ∧ encode st2 input = none) ∨
    ∃ s1 s2 out, encode st1 input = some (s1, out) ∧ encode st2 input = some (s2, out) ∧
      (∀ i, i < ASCII_SIZE → s1.freq i = s2.freq i) ∧
      (∀ i, i < ASCII_SIZE → s1.codes i = s2.codes i) ∧ s1.root = s2.root := by
  have hf := calculate_frequency_congr input st1.freq st2.freq hfreq
  have hroot : build_huffman_tree (calculate_frequency st1.freq input) =
      build_huffman_tree (calculate_frequency st2.freq input) := build_congr _ _ hf
  have hheader : (List.range ASCII_SIZE).map (calculate_frequency st1.freq input) =
      (List.range ASCII_SIZE).map (calculate_frequency st2.freq input) :=
    List.map_congr_left (fun i hi => hf i (List.mem_range.1 hi))
  generalize h1 : calculate_frequency st1.freq input = f1 at hf hroot hheader
  generalize h2 : calculate_frequency st2.freq input = f2 at hf hroot hheader
  by_cases hn : (build_huffman_tree f2).isNull = true
  · right
    refine ⟨{ st1 with freq := f1, root := build_huffman_tree f1 },
      { st2 with freq := f2, root := build_huffman_tree f2 }, none, ?_, ?_, hf, hcodes, hroot⟩
    · simp only [encode, h1, hroot, hn, if_true]
    · simp only [encode, h2, hn, if_true]
  · have hn' : (build_huffman_tree f2).isNull = false := by simpa using hn
    rcases generate_codes_build_cases f2 st2.temp_code st2.codes hn' with
      ⟨hh, tcb, hg2⟩ | ⟨hh, hg2⟩
    · rcases generate_codes_build_cases f2 st1.temp_code st1.codes hn' with
        ⟨_, tca, hg1⟩ | ⟨hh1, _⟩
      · have hc : ∀ i, i < ASCII_SIZE →
            put_paths st1.codes [] (leaf_paths (build_huffman_tree f2)) i =
              put_paths st2.codes [] (leaf_paths (build_huffman_tree f2)) i :=
          fun i hi => put_paths_congr [] _ _ _ i (hcodes i hi)
        have hw := write_payload_congr _ _ hc input
        cases hp : write_payload (put_paths st2.codes [] (leaf_paths (build_huffman_tree f2)))
            input with
        | none =>
          left
          rw [hp] at hw
          constructor
          · simp only [encode, h1, hroot, hn', Bool.false_eq_true, if_false, hg1, write_compressed,
              hw, Option.map_none']
          · simp only [encode, h2, hn', Bool.false_eq_true, if_false, hg2, write_compressed, hp,
              Option.map_none']
        | some payload =>
          right
          rw [hp] at hw
          refine ⟨{ root := build_huffman_tree f2,
                    codes := put_paths st1.codes [] (leaf_paths (build_huffman_tree f2)),
                    freq := f1, temp_code := tca },
            { root := build_huffman_tree f2,
              codes := put_paths st2.codes [] (leaf_paths (build_huffman_tree f2)),
              freq := f2, temp_code := tcb },
            some { header := (List.range ASCII_SIZE).map f2, payload := payload },
            ?_, ?_, hf, hc, rfl⟩
          · simp only [encode, h1, hroot, hn', Bool.false_eq_true, if_false, hg1, write_compressed,
              hw, Option.map_some', hheader]
          · simp only [encode, h2, hn', Bool.false_eq_true, if_false, hg2, write_compressed, hp,
              Option.map_some']
      · omega
    · left
      rcases generate_codes_build_cases f2 st1.temp_code st1.codes hn' with
        ⟨hh1, _⟩ | ⟨_, hg1⟩
      · omega
      · constructor
        · simp only [encode, h1, hroot, hn', Bool.false_eq_true, if_false, hg1]
        · simp only [encode, h2, hn', Bool.false_eq_true, if_false, hg2]

/-- C17 (witness): the initialized state and a state with another root and buffer. -/
theorem encode_depends_on_tables_witness :
    (encode init_state [97, 98] = none ∧
      encode { init_state with root := create_node 5 5, temp_code := fun _ => 49 } [97, 98] =
        none) ∨
    ∃ s1 s2 out, encode init_state [97, 98] = some (s1, out) ∧
      encode { init_state with root := create_node 5 5, temp_code := fun _ => 49 } [97, 98] =
        some (s2, out) ∧
      (∀ i, i < ASCII_SIZE → s1.freq i = s2.freq i) ∧
      (∀ i, i < ASCII_SIZE → s1.codes i = s2.codes i) ∧ s1.root = s2.root :=
  encode_depends_on_tables [97, 98] init_state
    { init_state with root := create_node 5 5, temp_code := fun _ => 49 }
    (fun _ _ => rfl) (fun _ _ => rfl)

/-- C18 (amended): for every input of in-range bytes with at least two different symbols, in
which no symbol occurs `2 ^ 31` times or more (no `int` counter overflows), with the table
counted from the initialized state and
the tree and codes built from it, `write_compressed` writes a payload and the walk of `decode`
over that payload emits the input followed by extra symbols, at most as many as there are
padding bits in the last byte, so at most 7; the input is a leading part of the output. -/
theorem payload_walk_up_to_padding (input : List Nat) (hsym : ∀ c ∈ input, c < ASCII_SIZE)
    (hcnt : ∀ c, c < ASCII_SIZE → input.count c < 2147483648)
    (htwo : ∃ a ∈ input, ∃ b ∈ input, a ≠ b) :
    ∃ tc2 codes payload t extra,
      generate_codes (build_huffman_tree (calculate_frequency init_state.freq input)) 0
        (init_state.temp_code, init_state.codes) = some (tc2, codes) ∧
      write_payload codes input = some payload ∧
      decode_loop (build_huffman_tree (calculate_frequency init_state.freq input)) payload
        (build_huffman_tree (calculate_frequency init_state.freq input), []) =
        some (t, input ++ extra) ∧
      extra.length ≤ 8 * payload.length - (code_bits codes input).length ∧
      extra.length ≤ 7 ∧ input <+: input ++ extra := by
  have hne : input ≠ [] := by
    obtain ⟨a, ha, _⟩ := htwo
    exact List.ne_nil_of_mem ha
  have hroot := walk_ok_of_input input hsym hcnt htwo
  obtain ⟨_, tc2, codes, hgen, hin⟩ := codes_of_input input hsym hcnt hne
  generalize build_huffman_tree (calculate_frequency init_state.freq input) = root
    at hroot hgen hin
  obtain ⟨payload, k, hpay, hk, hbits⟩ := write_payload_spec codes input
    (fun c hc => ⟨hsym c hc, by obtain ⟨e, _, _, h⟩ := hin c hc; exact ⟨e.2, h⟩⟩)
  obtain ⟨t, extra, hwalk, _, hextra⟩ := decode_bits_ok root hroot (List.replicate k 0) root
    input hroot
  have hl := congrArg List.length hbits
  rw [flatMap_byte_bits_length, List.length_append, List.length_replicate] at hl
  rw [List.length_replicate] at hextra
  refine ⟨tc2, codes, payload, t, extra, hgen, hpay, ?_, by omega, by omega,
    ⟨extra, rfl⟩⟩
  rw [decode_loop_eq, hbits, decode_code_bits root codes hroot input [] _ hin, List.nil_append,
    hwalk]

/-- C18 (witness): the input "aaabbc". -/
theorem payload_walk_up_to_padding_witness :
    ∃ tc2 codes payload t extra,
      generate_codes
        (build_huffman_tree (calculate_frequency init_state.freq [97, 97, 97, 98, 98, 99])) 0
        (init_state.temp_code, init_state.codes) = some (tc2, codes) ∧
      write_payload codes [97, 97, 97, 98, 98, 99] = some payload ∧
      decode_loop
        (build_huffman_tree (calculate_frequency init_state.freq [97, 97, 97, 98, 98, 99]))
        payload
        (build_huffman_tree (calculate_frequency init_state.freq [97, 97, 97, 98, 98, 99]), []) =
        some (t, [97, 97, 97, 98, 98, 99] ++ extra) ∧
      extra.length ≤ 8 * payload.length - (code_bits codes [97, 97, 97, 98, 98, 99]).length ∧
      extra.length ≤ 7 ∧ [97, 97, 97, 98, 98, 99] <+: [97, 97, 97, 98, 98, 99] ++ extra :=
  payload_walk_up_to_padding [97, 97, 97, 98, 98, 99] (by decide) (by decide)
    ⟨97, by decide, 98, by decide, by decide⟩

/-- C19: for every table with at least two non-zero counts and every payload, after any
number of bits of the payload the cursor of the walk of `decode` is a node whose two children
are both present, so no step and no leaf test dereferences NULL; the walk runs over the whole
payload, and `decode` of a file with that table as header returns without the invalid-file
error. -/
theorem decode_walk_well_defined (freq : Nat → Int) (payload : List Nat)
    (htwo : ∃ a, a < ASCII_SIZE ∧ freq a ≠ 0 ∧ ∃ b, b < ASCII_SIZE ∧ freq b ≠ 0 ∧ a ≠ b) :
    (∀ k, ∃ t out,
      decode_bits (build_huffman_tree freq) ((payload.flatMap byte_bits).take k)
        (build_huffman_tree freq, []) = some (t, out) ∧
      ∃ d f l r, t = node d f l r ∧ l.isNull = false ∧ r.isNull = false) ∧
    (∃ t out, decode_loop (build_huffman_tree freq) payload (build_huffman_tree freq, []) =
      some (t, out)) ∧
    ∀ st : State, ∃ r,
      decode st { header := (List.range ASCII_SIZE).map freq, payload := payload } = some r ∧
      r.failed = false := by
  have hroot := walk_ok_of_two freq htwo
  obtain ⟨t, extra, hfull, _, _⟩ := decode_bits_ok (build_huffman_tree freq) hroot
    (payload.flatMap byte_bits) (build_huffman_tree freq) [] hroot
  have hloop : decode_loop (build_huffman_tree freq) payload (build_huffman_tree freq, []) =
      some (t, [] ++ extra) := by
    rw [decode_loop_eq, hfull]
  refine ⟨?_, ⟨t, _, hloop⟩, ?_⟩
  · intro k
    obtain ⟨t, out, h, hw⟩ := decode_bits_take_ok (build_huffman_tree freq) hroot
      (payload.flatMap byte_bits) k
    exact ⟨t, out, h, walk_ok_both_children hw⟩
  · intro st
    have htree : build_huffman_tree (read_header st.freq ((List.range ASCII_SIZE).map freq)) =
        build_huffman_tree freq := build_congr _ _ (read_header_written st.freq freq)
    refine ⟨{ state := { st with
                freq := read_header st.freq ((List.range ASCII_SIZE).map freq),
                root := build_huffman_tree freq },
              failed := false, created := true, output := [] ++ extra }, ?_, rfl⟩
    simp only [decode, htree, hroot.1, Bool.false_eq_true, if_false, hloop, Option.map_some']

/-- C19 (witness): the table of "aaabbc" and the payload bytes 255, 0, 170. -/
theorem decode_walk_well_defined_witness :
    (∃ a, a < ASCII_SIZE ∧ table_aaabbc a ≠ 0 ∧
      ∃ b, b < ASCII_SIZE ∧ table_aaabbc b ≠ 0 ∧ a ≠ b) ∧
    ∃ t out, decode_loop (build_huffman_tree table_aaabbc) [255, 0, 170]
      (build_huffman_tree table_aaabbc, []) = some (t, out) :=
  ⟨⟨97, by decide, by decide, 98, by decide, by decide, by decide⟩,
    (decode_walk_well_defined table_aaabbc [255, 0, 170]
      ⟨97, by decide, by decide, 98, by decide, by decide, by decide⟩).2.1⟩

/-- C20: for every table of non-negative `int` counts, the tree of `build_huffman_tree` has
height below `MAX_TREE_HT`, every leaf lies at depth at most 99, and `generate_codes` run from
index 0 returns a table, that is, it writes `temp_code` (the terminator at index = depth
included) only at positions below 100; when the counts sum to less than `2 ^ 32`, so that no
combined frequency wraps around, the height is at most 45. -/
theorem code_buffer_bound (freq : Nat → Int) (tc : Nat → Nat)
    (codes : Nat → Option (List Nat))
    (hrange : ∀ i, i < ASCII_SIZE → 0 ≤ freq i ∧ freq i < 2147483648) :
    height (build_huffman_tree freq) < MAX_TREE_HT ∧
    (∀ e ∈ leaf_paths (build_huffman_tree freq), e.2.length ≤ 99) ∧
    ((build_huffman_tree freq).isNull = false →
      ∃ r, generate_codes (build_huffman_tree freq) 0 (tc, codes) = some r) ∧
    (((List.range ASCII_SIZE).map freq).sum < 4294967296 →
      height (build_huffman_tree freq) ≤ 45) := by
  have hh := build_height_lt freq hrange
  refine ⟨hh, ?_, ?_, build_height_le_of_sum freq hrange⟩
  · intro e he
    have := leaf_paths_length_le _ e he
    unfold MAX_TREE_HT at hh
    omega
  · intro hn
    obtain ⟨tc2, h⟩ := generate_codes_build freq tc codes hrange hn
    exact ⟨_, h⟩

set_option maxRecDepth 100000 in
/-- C20 (witness): the table of "aaabbc". -/
theorem code_buffer_bound_witness :
    (∀ i, i < ASCII_SIZE → 0 ≤ table_aaabbc i ∧ table_aaabbc i < 2147483648) ∧
    ((List.range ASCII_SIZE).map table_aaabbc).sum < 4294967296 ∧
    height (build_huffman_tree table_aaabbc) ≤ 45 :=
  ⟨by decide, by decide,
    (code_buffer_bound table_aaabbc init_state.temp_code init_state.codes (by decide)).2.2.2
      (by decide)⟩

/-! ## Counters that wrap around -/

theorem int_incr_wrap (x : Int) : int_incr (int_wrap x) = int_wrap (x + 1) := by
  unfold int_incr int_wrap
  omega

theorem calculate_frequency_wrap_aux (input : List Nat) :
    ∀ (g : Nat → Int) (i : Nat),
      calculate_frequency (fun j => int_wrap (g j)) input i =
        int_wrap (g i + if i < ASCII_SIZE then (input.count i : Int) else 0) := by
  induction input with
  | nil => intro g i; simp [calculate_frequency]
  | cons c cs ih =>
    intro g i
    rw [calculate_frequency_cons]
    by_cases hc : c < ASCII_SIZE
    · simp only [hc, if_true]
      have hupd : Function.update (fun j => int_wrap (g j)) c (int_incr (int_wrap (g c))) =
          fun j => int_wrap (Function.update g c (g c + 1) j) := by
        funext j
        by_cases hj : j = c
        · subst hj; simp [int_incr_wrap]
        · simp [Function.update_noteq hj]
      rw [hupd, ih]
      by_cases hi : i = c
      · subst hi
        simp only [Function.update_same, hc, if_true, List.count_cons_self, Nat.cast_add,
          Nat.cast_one]
        congr 1
        omega
      · have hci : ¬ c = i := fun h => hi h.symm
        rw [Function.update_noteq hi]
        simp [List.count_cons, hci]
    · simp only [hc, if_false]
      rw [ih]
      by_cases hi : i < ASCII_SIZE
      · have hci : ¬ c = i := fun h => hc (h ▸ hi)
        simp [hi, List.count_cons, hci]
      · simp [hi]

/-- Counting from the initialized table, for every input: each counter holds the number of
occurrences of its symbol wrapped into the range of a 32-bit `int`. -/
theorem calculate_frequency_wrap (input : List Nat) (i : Nat) :
    calculate_frequency init_state.freq input i =
      int_wrap (if i < ASCII_SIZE then (input.count i : Int) else 0) := by
  have h := calculate_frequency_wrap_aux input (fun _ => 0) i
  have h0 : (fun _ : Nat => int_wrap 0) = init_state.freq := by
    funext j
    show int_wrap 0 = 0
    decide
  rw [h0] at h
  rw [h, zero_add]

theorem write_loop_missing (codes : Nat → Option (List Nat)) (input : List Nat) :
    ∀ s, (∃ c ∈ input, codes c = none) → write_loop codes input s = none := by
  induction input with
  | nil => intro s h; obtain ⟨c, hc, _⟩ := h; simp at hc
  | cons c cs ih =>
    intro s h
    simp only [write_loop]
    by_cases hc : c < ASCII_SIZE
    · simp only [hc, if_true]
      cases hcode : codes c with
      | none => rfl
      | some code =>
        obtain ⟨x, hx, hxn⟩ := h
        rw [List.mem_cons] at hx
        rcases hx with rfl | hx
        · rw [hcode] at hxn; exact Option.noConfusion hxn
        · exact ih _ ⟨x, hx, hxn⟩
    · simp only [hc, if_false]

theorem overflow_input_counts :
    calculate_frequency init_state.freq overflow_input 98 = 1 ∧
    ∀ i, i < ASCII_SIZE → i ≠ 98 → calculate_frequency init_state.freq overflow_input i = 0 := by
  have hcount : ∀ i, overflow_input.count i =
      (if 97 = i then 4294967296 else 0) + (if 98 = i then 1 else 0) := by
    intro i
    unfold overflow_input
    rw [List.count_append, List.count_replicate]
    simp [List.count_cons]
  constructor
  · rw [calculate_frequency_wrap, hcount]
    decide
  · intro i hi hne
    rw [calculate_frequency_wrap, hcount]
    have h98 : ¬ 98 = i := fun h => hne h.symm
    simp only [hi, if_true, h98, if_false, Nat.add_zero]
    by_cases h97 : 97 = i
    · simp only [h97, if_true]; decide
    · simp only [h97, if_false]; decide

/-- On `overflow_input` the counter of 'a' wraps around to 0: the tree is the lone leaf of
'b', only 'b' gets a code, and the lookup of the code of 'a' meets the missing entry. -/
theorem overflow_input_run :
    build_huffman_tree (calculate_frequency init_state.freq overflow_input) =
      create_node 98 1 ∧
    generate_codes (build_huffman_tree (calculate_frequency init_state.freq overflow_input)) 0
      (init_state.temp_code, init_state.codes) =
      some (Function.update init_state.temp_code 0 0,
        Function.update init_state.codes 98 (some [])) ∧
    write_payload (Function.update init_state.codes 98 (some [])) overflow_input = none := by
  obtain ⟨h98, hz⟩ := overflow_input_counts
  have hb := build_single (calculate_frequency init_state.freq overflow_input) 98 (by decide)
    (by rw [h98]; decide) hz
  rw [h98] at hb
  have hb' : build_huffman_tree (calculate_frequency init_state.freq overflow_input) =
      create_node 98 1 := hb
  refine ⟨hb', ?_, ?_⟩
  · rw [hb']
    exact generate_codes_leaf 98 1 (by decide) _ _
  · have hmem : (97 : Nat) ∈ overflow_input := by
      unfold overflow_input
      rw [List.mem_append, List.mem_replicate]
      exact Or.inl ⟨by decide, rfl⟩
    have hnone : Function.update init_state.codes 98 (some ([] : List Nat)) 97 = none := by
      rw [Function.update_noteq (by decide)]
      rfl
    simp only [write_payload, write_loop_missing _ overflow_input (0, 0, []) ⟨97, hmem, hnone⟩]

theorem overflow_input_in_range : ∀ c ∈ overflow_input, c < ASCII_SIZE := by
  intro c hc
  unfold overflow_input at hc
  rw [List.mem_append, List.mem_replicate, List.mem_singleton] at hc
  rcases hc with ⟨_, rfl⟩ | rfl <;> decide

theorem overflow_input_mem : (97 : Nat) ∈ overflow_input ∧ (98 : Nat) ∈ overflow_input := by
  unfold overflow_input
  constructor
  · rw [List.mem_append, List.mem_replicate]
    exact Or.inl ⟨by decide, rfl⟩
  · rw [List.mem_append]
    exact Or.inr (List.mem_singleton.2 rfl)

/-! ## Claims that fail when a counter wraps around -/

/-- C12 (counterexample): the input made of `2 ^ 32` copies of 'a' followed by one 'b' has
only in-range bytes and 'a' occurs in it, yet the counter of 'a' wraps around to 0, the code
table built from the counted table has no entry for 'a', and `encode` from the initialized
state stops at the lookup of that missing entry in `write_compressed`. -/
theorem unknown_symbol_after_overflow :
    (∀ c ∈ overflow_input, c < ASCII_SIZE) ∧ (97 : Nat) ∈ overflow_input ∧
    ((generate_codes
        (build_huffman_tree (calculate_frequency init_state.freq overflow_input)) 0
        (init_state.temp_code, init_state.codes)).map fun r => r.2 97) = some none ∧
    encode init_state overflow_input = none := by
  obtain ⟨hb, hgen, hpay⟩ := overflow_input_run
  refine ⟨overflow_input_in_range, overflow_input_mem.1, ?_, ?_⟩
  · rw [hgen, Option.map_some']
    show some (Function.update init_state.codes 98 (some ([] : List Nat)) 97) = some none
    rw [Function.update_noteq (by decide)]
    rfl
  · have hn : (build_huffman_tree
        (calculate_frequency init_state.freq overflow_input)).isNull = false := by
      rw [hb]; rfl
    simp only [encode, hn, Bool.false_eq_true, if_false, hgen, write_compressed, hpay,
      Option.map_none']

/-- C15 (counterexample): for the input made of `2 ^ 31` copies of 'a', counted from the
initialized table, the counter of 'a' holds -2147483648, not the `2 ^ 31` occurrences of 'a'
in the input. -/
theorem counter_wraps_at_int_max :
    (List.replicate 2147483648 97).count 97 = 2147483648 ∧
    calculate_frequency init_state.freq (List.replicate 2147483648 97) 97 = -2147483648 := by
  have hc : (List.replicate 2147483648 97).count 97 = 2147483648 := by
    rw [List.count_replicate]
    simp
  refine ⟨hc, ?_⟩
  rw [calculate_frequency_wrap, hc]
  decide

/-- C18 (counterexample): the input made of `2 ^ 32` copies of 'a' followed by one 'b' has
only in-range bytes and two different symbols; with the table counted from the initialized
state, `generate_codes` returns a code table, but `write_compressed` writes no payload for
the walk of `decode` to run over: it stops at the missing code of 'a'. -/
theorem payload_walk_fails_after_overflow :
    (∀ c ∈ overflow_input, c < ASCII_SIZE) ∧
    (∃ a ∈ overflow_input, ∃ b ∈ overflow_input, a ≠ b) ∧
    (generate_codes
      (build_huffman_tree (calculate_frequency init_state.freq overflow_input)) 0
      (init_state.temp_code, init_state.codes)).isSome = true ∧
    ((generate_codes
        (build_huffman_tree (calculate_frequency init_state.freq overflow_input)) 0
        (init_state.temp_code, init_state.codes)).bind fun r =>
      write_payload r.2 overflow_input) = none := by
  obtain ⟨_, hgen, hpay⟩ := overflow_input_run
  refine ⟨overflow_input_in_range,
    ⟨97, overflow_input_mem.1, 98, overflow_input_mem.2, by decide⟩, ?_, ?_⟩
  · rw [hgen]; rfl
  · rw [hgen, Option.some_bind]
    exact hpay

end Huffman
